import Mathlib

/-!
Verification development for the hybrid retrieval pipeline in
`src/B_retriever.py` (document loading, token-bounded chunking, cached
batch embedding, index construction and ensemble retrieval).

The Python functions are shallowly embedded as executable Lean
definitions.  External collaborators (tiktoken encoder, nltk sentence
splitter, the md5 digest, and the OpenAI embedding provider) are passed
as explicit function parameters; the embedding provider is additionally
indexed by a global call counter so transient failures can be modelled.
Library retrievers that are not part of the repository (BM25, FAISS
wrapper, langchain `EnsembleRetriever`) are modelled from the
specification where needed and marked as such in their doc comments.
-/

set_option maxHeartbeats 1000000

namespace RfpRag

/-! ## Basic data model -/

/-- Document / chunk metadata: the Python string-keyed dict. -/
abbrev Metadata := List (String × String)

/-- A langchain `Document`: page content plus metadata. -/
structure Doc where
  page_content : String
  metadata : Metadata
deriving DecidableEq, Repr

/-- An embedding vector (Python list of floats, modelled over `ℚ`). -/
abbrev Vec := List ℚ

/-- The on-disk embedding cache: a flat hash → vector mapping. -/
abbrev Cache := List (String × Vec)

/-- Lookup in a Python-dict modelled as an association list. -/
def dictFind {β : Type} : List (String × β) → String → Option β
  | [], _ => none
  | e :: rest, k => if e.1 = k then some e.2 else dictFind rest k

/-- Python dict assignment `d[k] = v`: replaces the value in place if the
key exists, otherwise appends the new entry (insertion order). -/
def dictInsert {β : Type} : List (String × β) → String → β → List (String × β)
  | [], k, v => [(k, v)]
  | e :: rest, k, v => if e.1 = k then (k, v) :: rest else e :: dictInsert rest k v

/-- Python `str.strip()`: drop leading and trailing whitespace. -/
def pyStrip (s : String) : String :=
  ⟨((s.data.dropWhile Char.isWhitespace).reverse.dropWhile Char.isWhitespace).reverse⟩

/-- Python `sep.join(l)`. -/
def joinWith (sep : String) : List String → String
  | [] => ""
  | [s] => s
  | s :: rest => s ++ sep ++ joinWith sep (rest)

/-- Python `" ".join(l)`. -/
def joinSp (l : List String) : String := joinWith " " l

/-- Python `s[-k:]` for `k > 0`: the last `k` characters of `s`. -/
def pyTakeLast (k : Nat) (s : String) : String :=
  ⟨s.data.drop (s.data.length - k)⟩

/-! ## Sentence chunker (`semantic_token_chunk_documents`, lines 68–100)

`enc`/`dec` model the tiktoken encoder for the configured model and
`sent_tokenize` models `nltk.sent_tokenize`. -/

structure ChunkState where
  buffer : List String
  buffer_token_count : Nat
  chunked : List Doc
deriving DecidableEq, Repr

/-- One iteration of the sentence loop (lines 79–95). -/
def chunkStep (enc : String → List Nat) (dec : List Nat → String)
    (max_tokens overlap_tokens : Nat) (metadata : Metadata)
    (st : ChunkState) (sentence : String) : ChunkState :=
  let sentence_len := (enc sentence).length
  if st.buffer_token_count + sentence_len ≤ max_tokens then
    { st with buffer := st.buffer ++ [sentence],
              buffer_token_count := st.buffer_token_count + sentence_len }
  else
    let emitted := st.chunked ++ [⟨joinSp st.buffer, metadata⟩]
    if 0 < overlap_tokens then
      let overlap_text := pyTakeLast overlap_tokens (joinSp st.buffer)
      let buffer' := [dec (enc overlap_text), sentence]
      { buffer := buffer',
        buffer_token_count := (enc (joinSp buffer')).length,
        chunked := emitted }
    else
      { buffer := [sentence], buffer_token_count := sentence_len, chunked := emitted }

/-- Chunk one document's sentence list (lines 76–98), including the final
flush of a non-empty buffer. -/
def chunkDocSentences (enc : String → List Nat) (dec : List Nat → String)
    (max_tokens overlap_tokens : Nat) (metadata : Metadata)
    (sentences : List String) : List Doc :=
  let st := sentences.foldl (chunkStep enc dec max_tokens overlap_tokens metadata) ⟨[], 0, []⟩
  if st.buffer.isEmpty then st.chunked else st.chunked ++ [⟨joinSp st.buffer, metadata⟩]

/-- Model of `semantic_token_chunk_documents` (lines 68–100). -/
def semantic_token_chunk_documents (enc : String → List Nat) (dec : List Nat → String)
    (sent_tokenize : String → List String)
    (documents : List Doc) (max_tokens overlap_tokens : Nat) : List Doc :=
  documents.foldl
    (fun acc doc =>
      acc ++ chunkDocSentences enc dec max_tokens overlap_tokens doc.metadata
        (sent_tokenize doc.page_content)) []

/-! ## Generic list machinery: stable insertion sort, first-occurrence dedup,
batch splitting -/

/-- Stable insertion: `x` is placed before the first element `y` with
`before x y = true`; on ties (`before x y = false`) `x` keeps moving right,
so earlier elements win. -/
def insertB {α : Type} (before : α → α → Bool) (x : α) : List α → List α
  | [] => [x]
  | y :: ys => if before x y then x :: y :: ys else y :: insertB before x ys

/-- Stable insertion sort (used for Python `sorted` and for ranking). -/
def sortB {α : Type} (before : α → α → Bool) : List α → List α
  | [] => []
  | x :: xs => insertB before x (sortB before xs)

/-- Deduplication keeping the first occurrence of each element, in order. -/
def firstDedupAux {α : Type} [DecidableEq α] (seen : List α) : List α → List α
  | [] => []
  | x :: xs => if x ∈ seen then firstDedupAux seen xs else x :: firstDedupAux (x :: seen) xs

/-- First-occurrence dedup of a list. -/
def firstDedup {α : Type} [DecidableEq α] (l : List α) : List α := firstDedupAux [] l

/-- Fuel-driven batch splitting (structural recursion so that it reduces
in the kernel); the fuel is always instantiated with the list length. -/
def toBatchesFuel {α : Type} (bs : Nat) : Nat → List α → List (List α)
  | _, [] => []
  | 0, _ :: _ => []
  | fuel + 1, x :: xs => (x :: xs).take bs :: toBatchesFuel bs fuel ((x :: xs).drop bs)

/-- Python `range(0, len(l), bs)` slicing: split `l` into chunks of `bs`
(empty for a zero step, which Python rejects). -/
def toBatches {α : Type} (bs : Nat) (l : List α) : List (List α) :=
  if bs = 0 then [] else toBatchesFuel bs l.length l

/-! ## Document loading (`load_documents`, lines 30–65) -/

/-- One page entry of the `pdf_data` section; `text` may be absent. -/
structure PageRec where
  text : Option String
deriving DecidableEq, Repr

/-- One parsed record file: a `csv_metadata` dict and the paginated body. -/
structure RecordData where
  csv_metadata : List (String × String)
  pdf_data : List PageRec
deriving DecidableEq, Repr

/-- Python `metadata.get(key, "")`. -/
def metaGetD (md : List (String × String)) (k : String) : String :=
  (dictFind md k).getD ""

/-- The fixed metadata dict built for each document (lines 52–63). -/
def mkDocMetadata (metadata : List (String × String)) (filename : String) : Metadata :=
  [("사업명", metaGetD metadata "사업명"),
   ("공고번호", metaGetD metadata "공고 번호"),
   ("공고차수", metaGetD metadata "공고 차수"),
   ("사업금액", metaGetD metadata "사업 금액"),
   ("발주기관", metaGetD metadata "발주 기관"),
   ("입찰참여시작일", metaGetD metadata "입찰 참여 시작일"),
   ("입찰참여마감일", metaGetD metadata "입찰 참여 마감일"),
   ("사업요약", metaGetD metadata "사업 요약"),
   ("파일명", metaGetD metadata "파일명"),
   ("source", filename)]

/-- The nine `(document key, record key)` pairs read from `csv_metadata`. -/
def metaFieldPairs : List (String × String) :=
  [("사업명", "사업명"), ("공고번호", "공고 번호"), ("공고차수", "공고 차수"),
   ("사업금액", "사업 금액"), ("발주기관", "발주 기관"),
   ("입찰참여시작일", "입찰 참여 시작일"), ("입찰참여마감일", "입찰 참여 마감일"),
   ("사업요약", "사업 요약"), ("파일명", "파일명")]

/-- Python `s.endswith(suffix)`. -/
def pyEndsWith (s suffix : String) : Bool := suffix.data.isSuffixOf s.data

/-- Code-point lexicographic comparison (Python string `<`). -/
def charListLt : List Char → List Char → Bool
  | [], [] => false
  | [], _ :: _ => true
  | _ :: _, [] => false
  | a :: as, b :: bs => if a < b then true else if b < a then false else charListLt as bs

/-- Non-blank stripped page texts of a record (lines 42–46). -/
def pageTexts (r : RecordData) : List String :=
  r.pdf_data.filterMap fun page =>
    let t := pyStrip (page.text.getD "")
    if t = "" then none else some t

/-- Joined page text, `full_text = "\n".join(page_texts)` (line 47). -/
def fullTextOf (r : RecordData) : String := joinWith "\n" (pageTexts r)

/-- Sorted and limited `.json` file list (lines 32–34); `limit_files`
follows Python truthiness, so `some 0` means no limit. -/
def filesOf (records : List (String × RecordData)) (limit_files : Option Nat) :
    List (String × RecordData) :=
  let files := sortB (fun a b => !(charListLt b.1.data a.1.data))
    (records.filter fun f => pyEndsWith f.1 ".json")
  match limit_files with
  | some (n + 1) => files.take (n + 1)
  | _ => files

/-- Model of `load_documents` (lines 30–65): one `Doc` per record whose joined
non-blank page text is non-empty. -/
def load_documents (records : List (String × RecordData)) (limit_files : Option Nat) :
    List Doc :=
  (filesOf records limit_files).foldl
    (fun acc f =>
      let full_text := fullTextOf f.2
      if full_text ≠ "" then acc ++ [⟨full_text, mkDocMetadata f.2.csv_metadata f.1⟩]
      else acc) []

/-! ## Embedding with cache, batching and retry (lines 103–168, 207–246) -/

/-- Trace events recorded by the modelled pipeline. -/
inductive Event where
  | embedCall (texts : List String)
  | sleep (seconds : Nat)
  | cacheDump
  | indexLoad
  | indexSave
deriving DecidableEq, Repr

/-- The errors the pipeline can raise, one constructor per `raise` site. -/
inductive PipelineError where
  | noDocuments
  | noChunks
  | noApiKey
  | noTexts
  | allFiltered
  | providerError (msg : String)
  | retryExhausted
  | emptyEmbeddings
deriving DecidableEq, Repr

instance {ε α : Type} [DecidableEq ε] [DecidableEq α] : DecidableEq (Except ε α) := fun x y =>
  match x, y with
  | .ok a, .ok b =>
    if h : a = b then isTrue (by rw [h]) else isFalse (by intro he; cases he; exact h rfl)
  | .error a, .error b =>
    if h : a = b then isTrue (by rw [h]) else isFalse (by intro he; cases he; exact h rfl)
  | .ok _, .error _ => isFalse (by intro he; cases he)
  | .error _, .ok _ => isFalse (by intro he; cases he)

/-- The external embedding provider: given the global call counter and the
texts, returns the vectors or raises (transient failure). -/
abbrev Provider := Nat → List String → Except String (List Vec)

/-- Result of invoking the provider: outcome, updated call counter, events. -/
abbrev InvokeResult := Except PipelineError (List Vec) × Nat × List Event

/-- An embedding invoker (the provider wrapped in the chosen call policy). -/
abbrev Invoke := Nat → List String → InvokeResult

/-- Direct provider call `embedding.embed_documents(batch)` of `get_retriever`
(lines 225–227): a single attempt, failures propagate. -/
def directInvoke (p : Provider) : Invoke := fun c texts =>
  match p c texts with
  | .ok v => (.ok v, c + 1, [.embedCall texts])
  | .error e => (.error (.providerError e), c + 1, [.embedCall texts])

/-- The attempt loop of `embed_with_retry` (lines 108–113): on failure it
sleeps `2^attempt` seconds (also after the last failure) and retries. -/
def retryAttempts (p : Provider) (texts : List String) :
    Nat → Nat → Nat → InvokeResult
  | 0, _, c => (.error .retryExhausted, c, [])
  | fuel + 1, attempt, c =>
    match p c texts with
    | .ok v => (.ok v, c + 1, [.embedCall texts])
    | .error _ =>
      let rest := retryAttempts p texts fuel (attempt + 1) (c + 1)
      (rest.1, rest.2.1, .embedCall texts :: .sleep (2 ^ attempt) :: rest.2.2)

/-- Model of `embed_with_retry(embedder, texts, max_retries)` (lines 107–114). -/
def embed_with_retry (p : Provider) (texts : List String) (max_retries c : Nat) :
    InvokeResult :=
  retryAttempts p texts max_retries 0 c

/-- Invoker used by `build_faiss_index`: every call goes through the retry loop. -/
def retryInvoke (p : Provider) : Invoke := fun c texts => embed_with_retry p texts 3 c

/-- State of the batch-embedding loop. -/
structure EmbState where
  cache : Cache
  embeddings : List Vec
  new_cache_entries : Cache
  calls : Nat
  trace : List Event
deriving DecidableEq, Repr

/-- The per-batch scan (lines 213–219): cache hits are appended to the
output vectors immediately, misses are queued with their hashes. -/
def scanBatch (hash : String → String) (cache : Cache) :
    List String → List Vec × List String × List String
  | [] => ([], [], [])
  | text :: rest =>
    let h := hash text
    let acc := scanBatch hash cache rest
    match dictFind cache h with
    | some v => (v :: acc.1, acc.2.1, acc.2.2)
    | none => (acc.1, text :: acc.2.1, h :: acc.2.2)

/-- The provider call for one batch's queued misses (lines 221–227 /
142–148): a single invocation, split in half when the queued token total
exceeds 280000. -/
def embedCallFor (enc : String → List Nat) (invoke : Invoke) (c : Nat)
    (batch_to_embed : List String) : InvokeResult :=
  let total_tokens := (batch_to_embed.map fun t => (enc t).length).sum
  if 280000 < total_tokens then
    let mid := batch_to_embed.length / 2
    let r₁ := invoke c (batch_to_embed.take mid)
    match r₁.1 with
    | .error e => (.error e, r₁.2.1, r₁.2.2)
    | .ok v₁ =>
      let r₂ := invoke r₁.2.1 (batch_to_embed.drop mid)
      match r₂.1 with
      | .error e => (.error e, r₂.2.1, r₁.2.2 ++ r₂.2.2)
      | .ok v₂ => (.ok (v₁ ++ v₂), r₂.2.1, r₁.2.2 ++ r₂.2.2)
  else invoke c batch_to_embed

/-- One iteration of the batch loop (lines 211–232 / 131–153): scan the
batch, embed the queued misses, record new cache entries, and append the
fresh vectors after the already-appended cache hits. -/
def processBatch (hash : String → String) (enc : String → List Nat) (invoke : Invoke)
    (st : EmbState) (batch : List String) : Except PipelineError EmbState :=
  let scanned := scanBatch hash st.cache batch
  let batch_to_embed := scanned.2.1
  let cache_hits := scanned.2.2
  let st₁ := { st with embeddings := st.embeddings ++ scanned.1 }
  if batch_to_embed.isEmpty then .ok st₁
  else
    let callRes := embedCallFor enc invoke st₁.calls batch_to_embed
    match callRes.1 with
    | .error e => .error e
    | .ok embs =>
      let updated := cache_hits.zip embs
      .ok { cache := updated.foldl (fun c he => dictInsert c he.1 he.2) st₁.cache,
            embeddings := st₁.embeddings ++ embs,
            new_cache_entries :=
              updated.foldl (fun c he => dictInsert c he.1 he.2) st₁.new_cache_entries,
            calls := callRes.2.1,
            trace := st₁.trace ++ callRes.2.2 }

/-- The whole batch loop (lines 209–232 / 130–153). -/
def embedLoop (hash : String → String) (enc : String → List Nat) (invoke : Invoke)
    (batchSize : Nat) (texts : List String) (st₀ : EmbState) :
    Except PipelineError EmbState :=
  (toBatches batchSize texts).foldlM (processBatch hash enc invoke) st₀

/-- Final cache persistence (lines 234–235 / 155–156): the whole updated
dict is written once, only if some new entries were produced.  Returns the
final state (with the dump event) and the resulting on-disk cache. -/
def finishCache (cache₀ : Cache) (st : EmbState) : EmbState × Cache :=
  if st.new_cache_entries.isEmpty then (st, cache₀)
  else ({ st with trace := st.trace ++ [.cacheDump] }, st.cache)

/-- Model of `unique_pairs = {doc.page_content.strip(): doc.metadata for doc in docs}`
(line 196 / 120): a dict comprehension, so a later duplicate text keeps the
first key position but overwrites the metadata value. -/
def uniquePairsOf (docs : List Doc) : List (String × Metadata) :=
  docs.foldl (fun acc d => dictInsert acc (pyStrip d.page_content) d.metadata) []

/-- The FAISS vector store: index vectors plus the parallel documents. -/
structure FaissStore where
  vectors : List Vec
  docs : List Doc
deriving DecidableEq, Repr

/-- Result of an index build: the store, the loop state (with trace) and
the persisted cache file content. -/
structure BuildResult where
  store : FaissStore
  state : EmbState
  persisted : Cache
deriving DecidableEq, Repr

/-- The steps after the batch loop (lines 234–246 / 155–168): persist the
cache once if new entries exist, read the dimension from the first
embedding (an index error when there is none), and wrap vectors and
documents into the store. -/
def buildFromLoop (filtered : List (String × Metadata)) (cache₀ : Cache)
    (st : EmbState) : Except PipelineError BuildResult :=
  match (finishCache cache₀ st).1.embeddings with
  | [] => .error .emptyEmbeddings
  | _ :: _ =>
    .ok ⟨⟨(finishCache cache₀ st).1.embeddings, filtered.map fun tm => ⟨tm.1, tm.2⟩⟩,
      (finishCache cache₀ st).1, (finishCache cache₀ st).2⟩

/-- The embedding/index-build branch of `get_retriever` (lines 196–246):
dedup, filter texts with more than 2 tokens, embed with batch size 100 and
no retry, persist the cache, and build the store. -/
def getRetrieverEmbedPhase (hash : String → String) (enc : String → List Nat)
    (p : Provider) (chunks : List Doc) (cache₀ : Cache) :
    Except PipelineError BuildResult :=
  let unique_pairs := uniquePairsOf chunks
  let texts := unique_pairs.map Prod.fst
  if texts.isEmpty then .error .noTexts
  else
    let filtered := unique_pairs.filter fun tm => 2 < (enc tm.1).length
    let texts := filtered.map Prod.fst
    if texts.isEmpty then .error .allFiltered
    else
      match embedLoop hash enc (directInvoke p) 100 texts ⟨cache₀, [], [], 0, []⟩ with
      | .error e => .error e
      | .ok st => buildFromLoop filtered cache₀ st

/-- Model of `build_faiss_index(docs, embedding, batch_size)` (lines 103–168):
dedup, filter texts with more than 5 tokens (no emptiness checks), embed
through `embed_with_retry`, persist the cache, build the store. -/
def build_faiss_index (hash : String → String) (enc : String → List Nat)
    (p : Provider) (docs : List Doc) (cache₀ : Cache) (batch_size : Nat) :
    Except PipelineError BuildResult :=
  let unique_pairs := uniquePairsOf docs
  let filtered := unique_pairs.filter fun tm => 5 < (enc tm.1).length
  let texts := filtered.map Prod.fst
  match embedLoop hash enc (retryInvoke p) batch_size texts ⟨cache₀, [], [], 0, []⟩ with
  | .error e => .error e
  | .ok st => buildFromLoop filtered cache₀ st

/-! ## Retrievers and the ensemble (lines 249–256)

`BM25Retriever`, the FAISS similarity retriever and langchain's
`EnsembleRetriever` are third-party library code, absent from the
repository.  They are modelled from the spec (§4.6, §4.7, §4.4): each
sub-retriever returns its own top-k ranked list; the ensemble computes a
fused score per chunk as the weighted sum of rank-based contributions (a
chunk absent from a list contributes zero from that source), keeps chunks
with a positive fused score, orders them by fused score with ties broken
by the original candidate order (first-listed retriever wins), and
returns the top-k. -/

/-- Modelled from the spec: rank-based contribution of one sub-retriever's
ranked list to a chunk's fused score (zero when absent). -/
def rankContrib (L : List Doc) (c : Doc) : ℚ :=
  if c ∈ L then 1 / ((List.indexOf c L : ℚ) + 1) else 0

/-- Modelled from the spec: weighted-sum fused score of a chunk. -/
def fusedScore (w₁ w₂ : ℚ) (L₁ L₂ : List Doc) (c : Doc) : ℚ :=
  w₁ * rankContrib L₁ c + w₂ * rankContrib L₂ c

/-- Modelled from the spec: fuse two ranked lists into the top-k chunks by
fused score, ties broken in favor of the first-listed retriever. -/
def ensembleFuse (w₁ w₂ : ℚ) (L₁ L₂ : List Doc) (k : Nat) : List Doc :=
  (sortB (fun a b => !(decide (fusedScore w₁ w₂ L₁ L₂ a < fusedScore w₁ w₂ L₁ L₂ b)))
    ((firstDedup (L₁ ++ L₂)).filter fun c => decide (0 < fusedScore w₁ w₂ L₁ L₂ c))).take k

/-- Helper splitting a character list into space-separated words. -/
def lexWordsAux : List Char → List Char → List String
  | [], acc => if acc.isEmpty then [] else [⟨acc.reverse⟩]
  | c :: cs, acc =>
    if c = ' ' then
      if acc.isEmpty then lexWordsAux cs [] else ⟨acc.reverse⟩ :: lexWordsAux cs []
    else lexWordsAux cs (c :: acc)

/-- Whitespace tokens of a text, for the lexical retriever model. -/
def lexTokens (s : String) : List String := lexWordsAux s.data []

/-- Modelled from the spec: deterministic term-frequency relevance score. -/
def lexScore (query : String) (d : Doc) : ℚ :=
  (((lexTokens d.page_content).filter fun w => w ∈ lexTokens query).length : ℚ)

/-- Modelled from the spec: the lexical (BM25-style) retriever's top-k
ranked list over the full chunk set. -/
def bm25Rank (query : String) (corpus : List Doc) (k : Nat) : List Doc :=
  (sortB (fun a b => !(decide (lexScore query a < lexScore query b))) corpus).take k

/-- Squared Euclidean distance (`IndexFlatL2`). -/
def sqDist (u v : Vec) : ℚ := ((u.zip v).map fun p => (p.1 - p.2) * (p.1 - p.2)).sum

/-- Modelled from the spec: the vector store's nearest-k query over the
index vectors, returning the parallel documents. -/
def vecRank (qv : Vec) (store : FaissStore) (k : Nat) : List Doc :=
  ((sortB (fun a b => !(decide (sqDist qv b.2 < sqDist qv a.2)))
    (store.docs.zip store.vectors)).map Prod.fst).take k

/-- The assembled hybrid retriever (lines 249–253). -/
structure HybridRetriever where
  bm25_corpus : List Doc
  faiss_store : FaissStore
  k : Nat
  weights : ℚ × ℚ
deriving DecidableEq, Repr

/-- Modelled from the spec: querying the ensemble retriever; `qv` is the
query's embedding vector. -/
def ensembleRetrieve (r : HybridRetriever) (query : String) (qv : Vec) : List Doc :=
  ensembleFuse r.weights.1 r.weights.2
    (bm25Rank query r.bm25_corpus r.k) (vecRank qv r.faiss_store r.k) r.k

/-- Model of `get_retriever` (lines 171–256).  `savedIndex` models the persisted
index directory (`some` iff `os.path.exists(index_path)`); the result
carries the trace of external effects. -/
def get_retriever (enc : String → List Nat) (dec : List Nat → String)
    (sent_tokenize : String → List String) (hash : String → String) (p : Provider)
    (records : List (String × RecordData)) (limit_files : Option Nat)
    (cache₀ : Cache) (api_key : Option String)
    (reuse_index : Bool) (savedIndex : Option FaissStore) (k : Nat) :
    Except PipelineError (HybridRetriever × List Event) :=
  let documents := load_documents records limit_files
  if documents.isEmpty then .error .noDocuments
  else
    let chunks := semantic_token_chunk_documents enc dec sent_tokenize documents 300 50
    if chunks.isEmpty then .error .noChunks
    else
      match api_key with
      | none => .error .noApiKey
      | some _ =>
        match (if reuse_index then savedIndex else none) with
        | some s => .ok (⟨chunks, s, k, (1/2, 1/2)⟩, [.indexLoad])
        | none =>
          match getRetrieverEmbedPhase hash enc p chunks cache₀ with
          | .error e => .error e
          | .ok res => .ok (⟨chunks, res.store, k, (1/2, 1/2)⟩, res.state.trace ++ [.indexSave])

/-- Number of provider calls recorded in a trace. -/
def countEmbedCalls (tr : List Event) : Nat :=
  (tr.filter fun e => match e with | .embedCall _ => true | _ => false).length

/-! ## Concrete instances used by witnesses and counterexamples -/

/-- A concrete tokenizer: one token per non-space character.  It satisfies
the space-join subadditivity and `enc "" = []` assumptions used by the
chunking theorems. -/
def encW (s : String) : List Nat := (s.data.filter fun c => !(c == ' ')).map Char.toNat

/-- A concrete decoder matching `encW`. -/
def decW (l : List Nat) : String := ⟨l.map Char.ofNat⟩

/-- A concrete content fingerprint (the model's stand-in for md5). -/
def hashW (s : String) : String := s

/-- A sentence splitter returning the whole text as one sentence. -/
def splitOne (t : String) : List String := [t]

/-- A concrete splitter producing the two sentences `"ab"`, `"cd"`. -/
def splitTwo (_ : String) : List String := ["ab", "cd"]

/-- A provider that always succeeds, embedding every text as `[1]`. -/
def pOnes : Provider := fun _ ts => .ok (ts.map fun _ => [1])

/-- A provider that fails on the first call and succeeds afterwards. -/
def pBoom : Provider := fun c ts =>
  if c = 0 then .error "boom" else .ok (ts.map fun _ => [1])

/-- A provider that always fails. -/
def pDown : Provider := fun _ _ => .error "down"

/-- A provider distinguishing texts: `"aaaa"` embeds to `[1]`, others `[9]`. -/
def pMark : Provider := fun _ ts => .ok (ts.map fun t => if t = "aaaa" then [1] else [9])

/-- C1 scenario: two chunk texts, the second already cached as `[2]`. -/
def chunksC1 : List Doc := [⟨"aaaa", [("source", "f1")]⟩, ⟨"bbbb", [("source", "f2")]⟩]

/-- C1 scenario: pre-loaded cache holding only the second text's vector. -/
def cacheC1 : Cache := [("bbbb", [2])]

/-- The C1 scenario's embedding phase result. -/
def resC1 : Except PipelineError BuildResult :=
  getRetrieverEmbedPhase hashW encW pMark chunksC1 cacheC1

/-- C7 scenario: two oversized-enough texts embedded with batch size 1,
so both batches compute new cache entries. -/
def resC7 : Except PipelineError BuildResult :=
  build_faiss_index hashW encW pOnes [⟨"aaaaaa", []⟩, ⟨"bbbbbb", []⟩] [] 1

/-- The C4 scenario: two distinct chunk texts, embedded from an empty cache. -/
def chunksC4 : List Doc := [⟨"abcd", []⟩, ⟨"efgh", []⟩]

/-- The result of the C4 scenario's first embedding run. -/
def r1C4 : BuildResult :=
  ⟨⟨[[1], [1]], [⟨"abcd", []⟩, ⟨"efgh", []⟩]⟩,
   ⟨[("abcd", [1]), ("efgh", [1])], [[1], [1]], [("abcd", [1]), ("efgh", [1])], 1,
    [.embedCall ["abcd", "efgh"], .cacheDump]⟩,
   [("abcd", [1]), ("efgh", [1])]⟩

/-- The loop state reached in the C7 scenario, before persistence. -/
def stC7 : EmbState :=
  ⟨[("aaaaaa", [1]), ("bbbbbb", [1])], [[1], [1]],
   [("aaaaaa", [1]), ("bbbbbb", [1])], 2,
   [.embedCall ["aaaaaa"], .embedCall ["bbbbbb"]]⟩

/-- A record file with empty metadata and a single page of text. -/
def mkRec (t : String) : RecordData := ⟨[], [⟨some t⟩]⟩

/-- N identical-content record files named `f1.json` … . -/
def identRecords (names : List String) : List (String × RecordData) :=
  names.map fun n => (n, mkRec "alpha beta gamma")

/-- The C5 corpora: six, respectively two, identical documents. -/
def records6 : List (String × RecordData) :=
  identRecords ["f1.json", "f2.json", "f3.json", "f4.json", "f5.json", "f6.json"]

/-- Two identical documents. -/
def records2 : List (String × RecordData) := identRecords ["f1.json", "f2.json"]

/-- Extract the retriever from a pipeline result (dummy on error). -/
def retrOf (r : Except PipelineError (HybridRetriever × List Event)) : HybridRetriever :=
  match r with
  | .ok x => x.1
  | .error _ => ⟨[], ⟨[], []⟩, 0, (0, 0)⟩

/-- The C5 pipeline runs (build path, default `k = 5`). -/
def runC5 (records : List (String × RecordData)) :
    Except PipelineError (HybridRetriever × List Event) :=
  get_retriever encW decW splitOne hashW pOnes records none [] (some "key") false none 5

/-- Retrieval results for the six-document C5 scenario. -/
def c5res6 : List Doc := ensembleRetrieve (retrOf (runC5 records6)) "alpha" [1]

/-- Retrieval results for the two-document C5 scenario. -/
def c5res2 : List Doc := ensembleRetrieve (retrOf (runC5 records2)) "alpha" [1]

/-- The source-document metadata of the six C5 records. -/
def metas6 : List Metadata :=
  ["f1.json", "f2.json", "f3.json", "f4.json", "f5.json", "f6.json"].map
    fun n => mkDocMetadata [] n

/-- The source-document metadata of the two C5 records. -/
def metas2 : List Metadata := ["f1.json", "f2.json"].map fun n => mkDocMetadata [] n

/-! ## Predicates used by the theorems -/

/-- Token counting is subadditive across a space join: joining never
produces more tokens than the two parts held together (true for BPE-style
tokenizers, where the separator merges into an adjacent token). -/
def SubAddOn (enc : String → List Nat) : Prop :=
  ∀ a b, (enc (a ++ " " ++ b)).length ≤ (enc a).length + (enc b).length

/-- A chunk text formed at an overflow reset: a single source sentence,
possibly prefixed (when `overlap_tokens > 0`) by carried-over text. -/
def CarryShape (sents : List String) (t : String) : Prop :=
  ∃ s ∈ sents, t = s ∨ ∃ ov, t = ov ++ " " ++ s

/-- A chunk is within the token budget or is an overflow-reset chunk. -/
def GoodChunk (enc : String → List Nat) (maxT : Nat) (sents : List String) (c : Doc) : Prop :=
  (enc c.page_content).length ≤ maxT ∨ CarryShape sents c.page_content

/-- Loop invariant of the sentence chunker: the tracked token count is an
upper bound for the buffer's real token count, the buffer is within budget
unless it is a fresh overflow reset, and all emitted chunks are good. -/
def BufInv (enc : String → List Nat) (maxT : Nat) (sents : List String)
    (st : ChunkState) : Prop :=
  (enc (joinSp st.buffer)).length ≤ st.buffer_token_count ∧
  (st.buffer_token_count ≤ maxT ∨
    ∃ s ∈ sents, st.buffer = [s] ∨ ∃ ov, st.buffer = [ov, s]) ∧
  (∀ c ∈ st.chunked, GoodChunk enc maxT sents c)

end RfpRag

namespace RfpRag

/-! ## Chunker lemmas (claims C2 and C9) -/

theorem joinSp_append (l : List String) (s : String) (h : l ≠ []) :
    joinSp (l ++ [s]) = joinSp l ++ " " ++ s := by
  induction l with
  | nil => cases h rfl
  | cons a t ih =>
    cases t with
    | nil => rfl
    | cons b t' =>
      have h1 : joinSp ((a :: b :: t') ++ [s]) = a ++ " " ++ joinSp ((b :: t') ++ [s]) := rfl
      have h2 : joinSp (a :: b :: t') = a ++ " " ++ joinSp (b :: t') := rfl
      rw [h1, ih (by simp), h2]
      simp [String.append_assoc]

theorem joinSp_pair (a b : String) : joinSp [a, b] = a ++ " " ++ b := rfl

theorem joinSp_single (a : String) : joinSp [a] = a := rfl

theorem encLen_joinSp_append (enc : String → List Nat) (hsub : SubAddOn enc)
    (hemp : enc "" = []) (l : List String) (s : String) :
    (enc (joinSp (l ++ [s]))).length ≤ (enc (joinSp l)).length + (enc s).length := by
  cases l with
  | nil => simp [joinSp, joinWith, hemp]
  | cons a t =>
    rw [joinSp_append _ _ (by simp)]
    exact hsub _ _

theorem emit_good (enc : String → List Nat) (maxT : Nat) (sents : List String)
    (md : Metadata) (st : ChunkState) (h : BufInv enc maxT sents st) :
    GoodChunk enc maxT sents ⟨joinSp st.buffer, md⟩ := by
  rcases h with ⟨h1, h2, _⟩
  rcases h2 with hle | ⟨s, hs, hbuf | ⟨ov, hbuf⟩⟩
  · exact Or.inl (le_trans h1 hle)
  · exact Or.inr ⟨s, hs, Or.inl (by rw [hbuf, joinSp_single])⟩
  · exact Or.inr ⟨s, hs, Or.inr ⟨ov, by rw [hbuf, joinSp_pair]⟩⟩

theorem chunkStep_inv (enc : String → List Nat) (dec : List Nat → String)
    (maxT ovT : Nat) (md : Metadata) (sents : List String)
    (hsub : SubAddOn enc) (hemp : enc "" = [])
    (st : ChunkState) (hst : BufInv enc maxT sents st)
    (s : String) (hs : s ∈ sents) :
    BufInv enc maxT sents (chunkStep enc dec maxT ovT md st s) := by
  obtain ⟨h1, h2, h3⟩ := hst
  unfold chunkStep
  by_cases hfit : st.buffer_token_count + (enc s).length ≤ maxT
  · simp only [hfit, if_pos]
    refine ⟨?_, Or.inl hfit, h3⟩
    calc (enc (joinSp (st.buffer ++ [s]))).length
        ≤ (enc (joinSp st.buffer)).length + (enc s).length :=
          encLen_joinSp_append enc hsub hemp _ _
      _ ≤ st.buffer_token_count + (enc s).length := Nat.add_le_add_right h1 _
  · simp only [hfit, if_neg, if_false]
    have hgood : GoodChunk enc maxT sents ⟨joinSp st.buffer, md⟩ :=
      emit_good enc maxT sents md st ⟨h1, h2, h3⟩
    have hout : ∀ c ∈ st.chunked ++ [(⟨joinSp st.buffer, md⟩ : Doc)],
        GoodChunk enc maxT sents c := by
      intro c hc
      rcases List.mem_append.1 hc with hc | hc
      · exact h3 c hc
      · rcases List.mem_singleton.1 hc with rfl
        exact hgood
    by_cases hov : 0 < ovT
    · simp only [hov, if_pos]
      exact ⟨le_refl _, Or.inr ⟨s, hs, Or.inr ⟨_, rfl⟩⟩, hout⟩
    · simp only [hov, if_neg, if_false]
      exact ⟨by rw [joinSp_single], Or.inr ⟨s, hs, Or.inl rfl⟩, hout⟩

theorem chunkFold_inv (enc : String → List Nat) (dec : List Nat → String)
    (maxT ovT : Nat) (md : Metadata) (sents : List String) :
    SubAddOn enc → enc "" = [] →
    ∀ (l : List String), (∀ x ∈ l, x ∈ sents) →
    ∀ st, BufInv enc maxT sents st →
      BufInv enc maxT sents (l.foldl (chunkStep enc dec maxT ovT md) st) := by
  intro hsub hemp l
  induction l with
  | nil => intro _ st h; exact h
  | cons x t ih =>
    intro hmem st h
    simp only [List.foldl_cons]
    exact ih (fun y hy => hmem y (List.mem_cons_of_mem _ hy))
      _ (chunkStep_inv enc dec maxT ovT md sents hsub hemp st h x (hmem x (List.mem_cons_self _ _)))

theorem chunkDocSentences_good (enc : String → List Nat) (dec : List Nat → String)
    (maxT ovT : Nat) (md : Metadata) (sents : List String)
    (hsub : SubAddOn enc) (hemp : enc "" = []) :
    ∀ c ∈ chunkDocSentences enc dec maxT ovT md sents, GoodChunk enc maxT sents c := by
  have hinit : BufInv enc maxT sents ⟨[], 0, []⟩ := by
    refine ⟨?_, Or.inl (Nat.zero_le _), by intro c hc; cases hc⟩
    simp [joinSp, joinWith, hemp]
  have hfin := chunkFold_inv enc dec maxT ovT md sents hsub hemp sents
    (fun x hx => hx) _ hinit
  intro c hc
  unfold chunkDocSentences at hc
  set st := sents.foldl (chunkStep enc dec maxT ovT md) ⟨[], 0, []⟩ with hst
  by_cases hb : st.buffer.isEmpty
  · simp only [hb, if_pos] at hc
    exact hfin.2.2 c hc
  · simp only [hb, if_neg, if_false] at hc
    rcases List.mem_append.1 hc with hc | hc
    · exact hfin.2.2 c hc
    · rcases List.mem_singleton.1 hc with rfl
      exact emit_good enc maxT sents md st hfin

theorem foldl_append_eq_bind {α β : Type} (f : α → List β) (l : List α) (acc : List β) :
    l.foldl (fun a x => a ++ f x) acc = acc ++ l.flatMap f := by
  induction l generalizing acc with
  | nil => simp
  | cons x t ih => simp [List.foldl_cons, ih, List.append_assoc]

theorem mem_semantic_chunks (enc : String → List Nat) (dec : List Nat → String)
    (split : String → List String) (maxT ovT : Nat) (docs : List Doc) (c : Doc) :
    c ∈ semantic_token_chunk_documents enc dec split docs maxT ovT ↔
      ∃ doc ∈ docs,
        c ∈ chunkDocSentences enc dec maxT ovT doc.metadata (split doc.page_content) := by
  unfold semantic_token_chunk_documents
  rw [foldl_append_eq_bind]
  simp [List.mem_flatMap]

/-- C2 (amended): for every document list and every `max_tokens` and
`overlap_tokens`, and any tokenizer that is subadditive across space
joins and empty on `""`, every produced chunk's token count is at most
`max_tokens` except for overflow-reset chunks, which consist of a single
source sentence optionally preceded by carried-over overlap text (only
when `overlap_tokens = 0` is such an over-budget chunk exactly that
sentence). -/
theorem C2_chunk_budget_amended (enc : String → List Nat) (dec : List Nat → String)
    (split : String → List String) (maxT ovT : Nat) (docs : List Doc)
    (hsub : SubAddOn enc) (hemp : enc "" = [])
    (c : Doc) (hc : c ∈ semantic_token_chunk_documents enc dec split docs maxT ovT) :
    (enc c.page_content).length ≤ maxT ∨
      ∃ doc ∈ docs, CarryShape (split doc.page_content) c.page_content := by
  rcases (mem_semantic_chunks enc dec split maxT ovT docs c).1 hc with ⟨doc, hdoc, hcdoc⟩
  rcases chunkDocSentences_good enc dec maxT ovT doc.metadata (split doc.page_content)
      hsub hemp c hcdoc with h | h
  · exact Or.inl h
  · exact Or.inr ⟨doc, hdoc, h⟩

theorem encW_subAdd : SubAddOn encW := by
  intro a b
  have : (a ++ " " ++ b).data = a.data ++ [' '] ++ b.data := by
    simp [String.data_append]
  simp [encW, this, List.filter_append]

theorem encW_empty : encW "" = [] := rfl

/-- C2 witness: the amended theorem applied to a concrete run in which
the chunk `"ab cd"` (4 tokens > 2) is produced as an overflow-reset
chunk, with both hypotheses discharged for the concrete tokenizer. -/
theorem C2_chunk_budget_amended_witness :
    SubAddOn encW ∧ encW "" = [] ∧
    ((⟨"ab cd", []⟩ : Doc) ∈
      semantic_token_chunk_documents encW decW splitTwo [⟨"ab. cd", []⟩] 2 2) ∧
    ((encW (Doc.page_content ⟨"ab cd", []⟩)).length ≤ 2 ∨
      ∃ doc ∈ [(⟨"ab. cd", []⟩ : Doc)],
        CarryShape (splitTwo doc.page_content) (Doc.page_content ⟨"ab cd", []⟩)) :=
  ⟨encW_subAdd, encW_empty, by decide,
    C2_chunk_budget_amended encW decW splitTwo 2 2 [⟨"ab. cd", []⟩]
      encW_subAdd encW_empty ⟨"ab cd", []⟩ (by decide)⟩

/-- C2 counterexample: with `max_tokens = 2`, `overlap_tokens = 2` and
sentences `"ab"`, `"cd"` (each within budget), the chunker emits the
chunk `"ab cd"` with 4 > 2 tokens even though no single sentence exceeds
the budget and the chunk is not equal to any sentence — refuting the
claim that over-budget chunks are exactly single oversized sentences. -/
theorem C2_counterexample :
    (semantic_token_chunk_documents encW decW splitTwo [⟨"ab. cd", []⟩] 2 2).map
        Doc.page_content = ["ab", "ab cd"] ∧
    2 < (encW "ab cd").length ∧
    ((splitTwo "ab. cd").all fun s => decide ((encW s).length ≤ 2)) = true ∧
    "ab cd" ∉ splitTwo "ab. cd" := by
  refine ⟨by decide, by decide, by decide, by decide⟩

theorem chunkStep_chunked_mono (enc : String → List Nat) (dec : List Nat → String)
    (maxT ovT : Nat) (md : Metadata) (st : ChunkState) (s : String) :
    ∃ u, (chunkStep enc dec maxT ovT md st s).chunked = st.chunked ++ u := by
  unfold chunkStep
  by_cases hfit : st.buffer_token_count + (enc s).length ≤ maxT
  · exact ⟨[], by simp [hfit]⟩
  · by_cases hov : 0 < ovT
    · exact ⟨[⟨joinSp st.buffer, md⟩], by simp [hfit, hov]⟩
    · exact ⟨[⟨joinSp st.buffer, md⟩], by simp [hfit, hov]⟩

theorem chunkFold_chunked_mono (enc : String → List Nat) (dec : List Nat → String)
    (maxT ovT : Nat) (md : Metadata) (l : List String) (st : ChunkState) :
    ∃ u, (l.foldl (chunkStep enc dec maxT ovT md) st).chunked = st.chunked ++ u := by
  induction l generalizing st with
  | nil => exact ⟨[], by simp⟩
  | cons x t ih =>
    simp only [List.foldl_cons]
    rcases chunkStep_chunked_mono enc dec maxT ovT md st x with ⟨u₁, hu₁⟩
    rcases ih (chunkStep enc dec maxT ovT md st x) with ⟨u₂, hu₂⟩
    exact ⟨u₁ ++ u₂, by rw [hu₂, hu₁, List.append_assoc]⟩

/-- C9: whenever a document's first sentence alone exceeds `max_tokens`
(the only situation in which the accumulation buffer is empty at an
overflow), the empty buffer is emitted, so `semantic_token_chunk_documents`
produces a chunk whose text is empty. -/
theorem C9_empty_chunk (enc : String → List Nat) (dec : List Nat → String)
    (split : String → List String) (maxT ovT : Nat) (doc : Doc) (docs : List Doc)
    (s : String) (rest : List String)
    (hsplit : split doc.page_content = s :: rest)
    (hover : maxT < (enc s).length) :
    ∃ c ∈ semantic_token_chunk_documents enc dec split (doc :: docs) maxT ovT,
      c.page_content = "" := by
  have hstep : (chunkStep enc dec maxT ovT doc.metadata ⟨[], 0, []⟩ s).chunked
      = [⟨joinSp [], doc.metadata⟩] := by
    unfold chunkStep
    have h0 : ¬ ((0 : Nat) + (enc s).length ≤ maxT) := by omega
    have h1 : ¬ ((enc s).length ≤ maxT) := by omega
    by_cases hov : 0 < ovT <;> simp [h0, h1, hov]
  have hmem : (⟨"", doc.metadata⟩ : Doc) ∈
      chunkDocSentences enc dec maxT ovT doc.metadata (split doc.page_content) := by
    rw [hsplit]
    unfold chunkDocSentences
    simp only [List.foldl_cons]
    rcases chunkFold_chunked_mono enc dec maxT ovT doc.metadata rest
        (chunkStep enc dec maxT ovT doc.metadata ⟨[], 0, []⟩ s) with ⟨u, hu⟩
    have hjoin : joinSp ([] : List String) = "" := rfl
    by_cases hb : (List.foldl (chunkStep enc dec maxT ovT doc.metadata)
        (chunkStep enc dec maxT ovT doc.metadata ⟨[], 0, []⟩ s) rest).buffer.isEmpty
    · simp only [hb, if_pos]
      rw [hu, hstep, hjoin]
      exact List.mem_append.2 (Or.inl (List.mem_singleton.2 rfl))
    · simp only [hb, if_neg, if_false]
      refine List.mem_append.2 (Or.inl ?_)
      rw [hu, hstep, hjoin]
      exact List.mem_append.2 (Or.inl (List.mem_singleton.2 rfl))
  exact ⟨⟨"", doc.metadata⟩,
    (mem_semantic_chunks enc dec split maxT ovT (doc :: docs) _).2
      ⟨doc, List.mem_cons_self _ _, hmem⟩, rfl⟩

/-- C9 witness: a concrete document whose single sentence has 3 tokens
against a budget of 1; the produced chunk list contains an empty chunk. -/
theorem C9_empty_chunk_witness :
    ∃ c ∈ semantic_token_chunk_documents encW decW splitOne [⟨"abc", []⟩] 1 50,
      c.page_content = "" :=
  C9_empty_chunk encW decW splitOne 1 50 ⟨"abc", []⟩ [] "abc" [] rfl (by decide)

/-! ## Claim C1: embedding/metadata alignment in the batch loop -/

/-- C1 (evaluation at the failing input): with the second text pre-cached
as `[2]` and the first text a cache miss embedding to `[1]`, the batch
loop appends the cache hit before the freshly computed vector, so index
vector 0 is the cached embedding of text 1 while position 0's document is
text 0 — the embeddings list is not aligned with the text order. -/
theorem C1_embedding_misalignment :
    (resC1.map fun r => (r.store.vectors, r.store.docs.map Doc.page_content)) =
      .ok ([[2], [1]], ["aaaa", "bbbb"]) ∧
    pMark 0 ["aaaa"] = .ok [[1]] ∧
    ([(2 : ℚ)] : Vec) ≠ ([(1 : ℚ)] : Vec) := by
  refine ⟨by decide, by decide, by decide⟩

/-! ## Claim C3: retry/backoff policy -/

/-- C3 counterexample: `get_retriever`'s embedding loop calls the provider
directly with no retry; with a provider failing only on its very first
call (and succeeding from the second call on), the embedding phase raises
immediately instead of succeeding on a later attempt. -/
theorem C3_counterexample :
    getRetrieverEmbedPhase hashW encW pBoom [⟨"abcd", []⟩] [] =
      .error (.providerError "boom") ∧
    pBoom 1 ["abcd"] = .ok [[1]] := by
  refine ⟨by decide, by decide⟩

/-- C3 (amended): `embed_with_retry` — used only by `build_faiss_index` —
attempts each embedding call up to 3 times, sleeping `2^attempt` seconds
after each failed attempt, returns the provider's result as soon as an
attempt succeeds, and raises a fatal error after all 3 attempts fail with
no partial vectors; the calls in `get_retriever`'s loop are made directly,
once, with failures propagating. -/
theorem C3_retry_amended :
    (∀ (p : Provider) (texts : List String) (c : Nat),
      (∀ a, a < 3 → ∃ e, p (c + a) texts = .error e) →
      embed_with_retry p texts 3 c =
        (.error .retryExhausted, c + 3,
          [.embedCall texts, .sleep 1, .embedCall texts, .sleep 2,
           .embedCall texts, .sleep 4])) ∧
    (∀ (p : Provider) (texts : List String) (c : Nat) (v : List Vec),
      p c texts = .ok v →
      embed_with_retry p texts 3 c = (.ok v, c + 1, [.embedCall texts])) ∧
    (∀ (p : Provider) (texts : List String) (c : Nat) (e : String) (v : List Vec),
      p c texts = .error e → p (c + 1) texts = .ok v →
      embed_with_retry p texts 3 c =
        (.ok v, c + 2, [.embedCall texts, .sleep 1, .embedCall texts])) ∧
    (∀ (p : Provider) (texts : List String) (c : Nat) (e₁ e₂ : String) (v : List Vec),
      p c texts = .error e₁ → p (c + 1) texts = .error e₂ → p (c + 2) texts = .ok v →
      embed_with_retry p texts 3 c =
        (.ok v, c + 3,
          [.embedCall texts, .sleep 1, .embedCall texts, .sleep 2, .embedCall texts])) ∧
    (∀ (p : Provider) (c : Nat) (texts : List String) (e : String),
      p c texts = .error e →
      directInvoke p c texts = (.error (.providerError e), c + 1, [.embedCall texts])) := by
  refine ⟨?_, ?_, ?_, ?_, ?_⟩
  · intro p texts c h
    obtain ⟨e₀, h₀⟩ := h 0 (by omega)
    obtain ⟨e₁, h₁⟩ := h 1 (by omega)
    obtain ⟨e₂, h₂⟩ := h 2 (by omega)
    have h₀' : p c texts = .error e₀ := by simpa using h₀
    have h₂' : p (c + 1 + 1) texts = .error e₂ := by
      rw [show c + 1 + 1 = c + 2 by omega]; exact h₂
    simp only [embed_with_retry, retryAttempts, h₀', h₁, h₂']
    have : c + 1 + 1 + 1 = c + 3 := by omega
    rw [this]
    norm_num
  · intro p texts c v h
    simp only [embed_with_retry, retryAttempts, h]
  · intro p texts c e v h₀ h₁
    simp only [embed_with_retry, retryAttempts, h₀, h₁]
    have : c + 1 + 1 = c + 2 := by omega
    rw [this]
    norm_num
  · intro p texts c e₁ e₂ v h₀ h₁ h₂
    have h₂' : p (c + 1 + 1) texts = .ok v := by
      rw [show c + 1 + 1 = c + 2 by omega]; exact h₂
    simp only [embed_with_retry, retryAttempts, h₀, h₁, h₂']
    have : c + 1 + 1 + 1 = c + 3 := by omega
    rw [this]
    norm_num
  · intro p c texts e h
    simp only [directInvoke, h]

/-- C3 witness: the amended theorem applied at concrete providers — an
always-failing provider exhausts the three attempts with backoff 1, 2, 4,
and the direct (non-retrying) invoker propagates a first-call failure. -/
theorem C3_retry_amended_witness :
    embed_with_retry pDown ["t"] 3 0 =
      (.error .retryExhausted, 3,
        [.embedCall ["t"], .sleep 1, .embedCall ["t"], .sleep 2,
         .embedCall ["t"], .sleep 4]) ∧
    directInvoke pBoom 0 ["abcd"] =
      (.error (.providerError "boom"), 1, [.embedCall ["abcd"]]) := by
  constructor
  · have h := C3_retry_amended.1 pDown ["t"] 0 (fun a _ => ⟨"down", rfl⟩)
    simpa using h
  · have h := C3_retry_amended.2.2.2.2 pBoom 0 ["abcd"] "boom" (by decide)
    simpa using h

/-! ## Dictionary, scan and per-batch lemmas -/

theorem dictFind_dictInsert {β : Type} (c : List (String × β)) (k : String) (v : β)
    (k' : String) :
    dictFind (dictInsert c k v) k' = if k = k' then some v else dictFind c k' := by
  induction c with
  | nil => simp [dictInsert, dictFind]
  | cons e rest ih =>
    by_cases he : e.1 = k
    · simp only [dictInsert, he, if_pos, dictFind]
      by_cases h : k = k'
      · simp [h]
      · have he' : ¬ e.1 = k' := by rw [he]; exact h
        simp [h, dictFind, he']
    · simp only [dictInsert, he, if_neg, if_false, dictFind]
      by_cases h : e.1 = k'
      · have hkk : ¬ k = k' := fun hk => he (by rw [hk]; exact h)
        simp [h, hkk]
      · simp [h, ih]

theorem dictInsert_ne_nil {β : Type} (c : List (String × β)) (k : String) (v : β) :
    dictInsert c k v ≠ [] := by
  cases c with
  | nil => simp [dictInsert]
  | cons e rest =>
    by_cases he : e.1 = k <;> simp [dictInsert, he]

theorem foldlInsert_ne_nil {β : Type} (pairs : List (String × β)) :
    ∀ c : List (String × β), c ≠ [] →
      pairs.foldl (fun c he => dictInsert c he.1 he.2) c ≠ [] := by
  induction pairs with
  | nil => intro c hc; simpa using hc
  | cons p rest ih =>
    intro c _
    simp only [List.foldl_cons]
    exact ih _ (dictInsert_ne_nil _ _ _)

theorem foldlInsert_ne_nil_of_pairs {β : Type} (pairs : List (String × β))
    (c : List (String × β)) (h : pairs ≠ []) :
    pairs.foldl (fun c he => dictInsert c he.1 he.2) c ≠ [] := by
  cases pairs with
  | nil => cases h rfl
  | cons p rest =>
    simp only [List.foldl_cons]
    exact foldlInsert_ne_nil rest _ (dictInsert_ne_nil _ _ _)

theorem foldlInsert_isSome_mono {β : Type} (pairs : List (String × β)) :
    ∀ (c : List (String × β)) (k : String), (dictFind c k).isSome →
      (dictFind (pairs.foldl (fun c he => dictInsert c he.1 he.2) c) k).isSome := by
  induction pairs with
  | nil => intro c k h; simpa using h
  | cons p rest ih =>
    intro c k h
    simp only [List.foldl_cons]
    refine ih _ _ ?_
    rw [dictFind_dictInsert]
    by_cases hk : p.1 = k <;> simp [hk, h]

theorem foldlInsert_isSome_of_mem {β : Type} (pairs : List (String × β)) :
    ∀ (c : List (String × β)) (k : String), k ∈ pairs.map Prod.fst →
      (dictFind (pairs.foldl (fun c he => dictInsert c he.1 he.2) c) k).isSome := by
  induction pairs with
  | nil => intro c k h; cases h
  | cons p rest ih =>
    intro c k h
    simp only [List.foldl_cons]
    rcases List.mem_cons.1 h with h | h
    · refine foldlInsert_isSome_mono rest _ _ ?_
      rw [dictFind_dictInsert]
      simp [h]
    · exact ih _ _ h

theorem scanBatch_length (hash : String → String) (cache : Cache) (batch : List String) :
    (scanBatch hash cache batch).2.1.length = (scanBatch hash cache batch).2.2.length := by
  induction batch with
  | nil => rfl
  | cons t rest ih =>
    simp only [scanBatch]
    cases h : dictFind cache (hash t) <;> simp [h, ih]

theorem scanBatch_cover (hash : String → String) (cache : Cache) (batch : List String) :
    ∀ t ∈ batch, (dictFind cache (hash t)).isSome ∨
      hash t ∈ (scanBatch hash cache batch).2.2 := by
  induction batch with
  | nil => intro t h; cases h
  | cons x rest ih =>
    intro t ht
    rcases List.mem_cons.1 ht with rfl | ht
    · cases h : dictFind cache (hash t)
      · right; simp only [scanBatch]; rw [h]; exact List.mem_cons_self _ _
      · left; simp [h]
    · rcases ih t ht with h | h
      · exact Or.inl h
      · right
        simp only [scanBatch]
        cases hx : dictFind cache (hash x) <;> simp [hx, h]

theorem scanBatch_allhits (hash : String → String) (cache : Cache) (batch : List String)
    (hall : ∀ t ∈ batch, (dictFind cache (hash t)).isSome) :
    (scanBatch hash cache batch).2.1 = [] ∧ (scanBatch hash cache batch).2.2 = [] ∧
      (scanBatch hash cache batch).1.length = batch.length := by
  induction batch with
  | nil => exact ⟨rfl, rfl, rfl⟩
  | cons t rest ih =>
    have ht := hall t (List.mem_cons_self _ _)
    rcases Option.isSome_iff_exists.1 ht with ⟨v, hv⟩
    have ihr := ih fun x hx => hall x (List.mem_cons_of_mem _ hx)
    simp only [scanBatch]
    rw [hv]
    simpa using ihr

theorem embedCallFor_nodump (enc : String → List Nat) (invoke : Invoke) (c : Nat)
    (bte : List String)
    (hinv : ∀ c ts, Event.cacheDump ∉ (invoke c ts).2.2) :
    Event.cacheDump ∉ (embedCallFor enc invoke c bte).2.2 := by
  unfold embedCallFor
  by_cases htot : 280000 < ((bte.map fun t => (enc t).length).sum)
  · simp only [htot, if_pos]
    cases h₁ : (invoke c (bte.take (bte.length / 2))).1
    · simp only [h₁]
      exact hinv _ _
    · cases h₂ : (invoke (invoke c (bte.take (bte.length / 2))).2.1 (bte.drop (bte.length / 2))).1
      · simp only [h₂]
        intro hmem
        rcases List.mem_append.1 hmem with hm | hm
        · exact hinv _ _ hm
        · exact hinv _ _ hm
      · simp only [h₂]
        intro hmem
        rcases List.mem_append.1 hmem with hm | hm
        · exact hinv _ _ hm
        · exact hinv _ _ hm
  · simp only [htot, if_neg, if_false]
    exact hinv _ _

theorem embedCallFor_length (enc : String → List Nat) (invoke : Invoke) (c : Nat)
    (bte : List String) (v : List Vec)
    (hlen : ∀ c ts w, (invoke c ts).1 = .ok w → w.length = ts.length)
    (h : (embedCallFor enc invoke c bte).1 = .ok v) :
    v.length = bte.length := by
  unfold embedCallFor at h
  by_cases htot : 280000 < ((bte.map fun t => (enc t).length).sum)
  · simp only [htot, if_pos] at h
    cases h₁ : (invoke c (bte.take (bte.length / 2))).1 with
    | error e => rw [h₁] at h; cases h
    | ok v₁ =>
      rw [h₁] at h
      cases h₂ : (invoke (invoke c (bte.take (bte.length / 2))).2.1
          (bte.drop (bte.length / 2))).1 with
      | error e => rw [h₂] at h; cases h
      | ok v₂ =>
        rw [h₂] at h
        simp only [Except.ok.injEq] at h
        subst h
        have l₁ := hlen _ _ _ h₁
        have l₂ := hlen _ _ _ h₂
        rw [List.length_append, l₁, l₂, List.length_take, List.length_drop]
        omega
  · simp only [htot, if_neg, if_false] at h
    exact hlen _ _ _ h

theorem processBatch_ok_elim (hash : String → String) (enc : String → List Nat)
    (invoke : Invoke) (st : EmbState) (batch : List String) (st' : EmbState)
    (h : processBatch hash enc invoke st batch = .ok st') :
    ((scanBatch hash st.cache batch).2.1 = [] ∧
      st' = { st with embeddings := st.embeddings ++ (scanBatch hash st.cache batch).1 }) ∨
    ((scanBatch hash st.cache batch).2.1 ≠ [] ∧ ∃ embs,
      (embedCallFor enc invoke st.calls (scanBatch hash st.cache batch).2.1).1 = .ok embs ∧
      st' = { cache := ((scanBatch hash st.cache batch).2.2.zip embs).foldl
                (fun c he => dictInsert c he.1 he.2) st.cache,
              embeddings := st.embeddings ++ (scanBatch hash st.cache batch).1 ++ embs,
              new_cache_entries := ((scanBatch hash st.cache batch).2.2.zip embs).foldl
                (fun c he => dictInsert c he.1 he.2) st.new_cache_entries,
              calls := (embedCallFor enc invoke st.calls
                (scanBatch hash st.cache batch).2.1).2.1,
              trace := st.trace ++ (embedCallFor enc invoke st.calls
                (scanBatch hash st.cache batch).2.1).2.2 }) := by
  unfold processBatch at h
  by_cases hempty : (scanBatch hash st.cache batch).2.1.isEmpty
  · left
    simp only [hempty, if_pos] at h
    exact ⟨List.isEmpty_iff.1 hempty, (Except.ok.inj h).symm⟩
  · right
    simp only [hempty, if_neg, if_false] at h
    refine ⟨fun hnil => hempty (by rw [hnil]; rfl), ?_⟩
    cases hcall : (embedCallFor enc invoke st.calls (scanBatch hash st.cache batch).2.1).1 with
    | error e => rw [hcall] at h; cases h
    | ok embs =>
      rw [hcall] at h
      exact ⟨embs, rfl, (Except.ok.inj h).symm⟩

theorem processBatch_allhits (hash : String → String) (enc : String → List Nat)
    (invoke : Invoke) (st : EmbState) (batch : List String)
    (hall : ∀ t ∈ batch, (dictFind st.cache (hash t)).isSome) :
    processBatch hash enc invoke st batch =
      .ok { st with embeddings := st.embeddings ++ (scanBatch hash st.cache batch).1 } ∧
    (scanBatch hash st.cache batch).1.length = batch.length := by
  obtain ⟨h1, _, h3⟩ := scanBatch_allhits hash st.cache batch hall
  constructor
  · unfold processBatch
    simp [h1]
  · exact h3

/-! ## Loop-level lemmas -/

theorem toBatchesFuel_flatten {α : Type} (bs : Nat) (hbs : 0 < bs) :
    ∀ (fuel : Nat) (l : List α), l.length ≤ fuel → (toBatchesFuel bs fuel l).flatten = l := by
  intro fuel
  induction fuel with
  | zero =>
    intro l hl
    have : l = [] := List.eq_nil_of_length_eq_zero (Nat.le_zero.1 hl)
    subst this
    rfl
  | succ n ih =>
    intro l hl
    cases l with
    | nil => rfl
    | cons x xs =>
      simp only [toBatchesFuel, List.flatten_cons]
      rw [ih _ ?_]
      · exact List.take_append_drop bs (x :: xs)
      · simp only [List.length_drop, List.length_cons] at hl ⊢
        omega

theorem toBatches_flatten {α : Type} (bs : Nat) (hbs : 0 < bs) (l : List α) :
    (toBatches bs l).flatten = l := by
  unfold toBatches
  rw [if_neg (by omega)]
  exact toBatchesFuel_flatten bs hbs l.length l le_rfl

theorem loop_cover (hash : String → String) (enc : String → List Nat) (invoke : Invoke)
    (hlen : ∀ c ts w, (invoke c ts).1 = .ok w → w.length = ts.length) :
    ∀ (L : List (List String)) (st₀ stf : EmbState),
    L.foldlM (processBatch hash enc invoke) st₀ = .ok stf →
    (∀ k, (dictFind st₀.cache k).isSome → (dictFind stf.cache k).isSome) ∧
    (∀ b ∈ L, ∀ t ∈ b, (dictFind stf.cache (hash t)).isSome) := by
  intro L
  induction L with
  | nil =>
    intro st₀ stf h
    simp only [List.foldlM_nil] at h
    cases Except.ok.inj h
    exact ⟨fun k hk => hk, by intro b hb; cases hb⟩
  | cons b L' ih =>
    intro st₀ stf h
    rw [List.foldlM_cons] at h
    cases h1 : processBatch hash enc invoke st₀ b with
    | error e => rw [h1] at h; simp [Bind.bind, Except.bind] at h
    | ok st₁ =>
      rw [h1] at h
      simp only [Bind.bind, Except.bind] at h
      obtain ⟨ihmono, ihcover⟩ := ih st₁ stf h
      have hmono₁ : ∀ k, (dictFind st₀.cache k).isSome → (dictFind st₁.cache k).isSome := by
        rcases processBatch_ok_elim hash enc invoke st₀ b st₁ h1 with
          ⟨_, rfl⟩ | ⟨_, embs, _, rfl⟩
        · exact fun k hk => hk
        · exact fun k hk => foldlInsert_isSome_mono _ _ _ hk
      have hbatch₁ : ∀ t ∈ b, (dictFind st₁.cache (hash t)).isSome := by
        rcases processBatch_ok_elim hash enc invoke st₀ b st₁ h1 with
          ⟨hnil, rfl⟩ | ⟨_, embs, hembs, rfl⟩
        · intro t ht
          rcases scanBatch_cover hash st₀.cache b t ht with hh | hh
          · exact hh
          · have hlen2 := scanBatch_length hash st₀.cache b
            rw [hnil] at hlen2
            rw [List.eq_nil_of_length_eq_zero hlen2.symm] at hh
            cases hh
        · intro t ht
          rcases scanBatch_cover hash st₀.cache b t ht with hh | hh
          · exact foldlInsert_isSome_mono _ _ _ hh
          · refine foldlInsert_isSome_of_mem _ _ _ ?_
            have hlenemb : embs.length = (scanBatch hash st₀.cache b).2.1.length :=
              embedCallFor_length enc invoke st₀.calls _ embs hlen hembs
            have hle : (scanBatch hash st₀.cache b).2.2.length ≤ embs.length := by
              rw [hlenemb, scanBatch_length]
            rw [List.map_fst_zip _ _ hle]
            exact hh
      exact ⟨fun k hk => ihmono k (hmono₁ k hk),
        by
          intro b' hb' t ht
          rcases List.mem_cons.1 hb' with rfl | hb'
          · exact ihmono _ (hbatch₁ t ht)
          · exact ihcover b' hb' t ht⟩

theorem loop_allhits (hash : String → String) (enc : String → List Nat) (invoke : Invoke) :
    ∀ (L : List (List String)) (st₀ : EmbState),
    (∀ b ∈ L, ∀ t ∈ b, (dictFind st₀.cache (hash t)).isSome) →
    ∃ stf, L.foldlM (processBatch hash enc invoke) st₀ = .ok stf ∧
      stf.cache = st₀.cache ∧ stf.calls = st₀.calls ∧ stf.trace = st₀.trace ∧
      stf.new_cache_entries = st₀.new_cache_entries ∧
      stf.embeddings.length = st₀.embeddings.length + (L.map List.length).sum := by
  intro L
  induction L with
  | nil =>
    intro st₀ _
    exact ⟨st₀, rfl, rfl, rfl, rfl, rfl, by simp⟩
  | cons b L' ih =>
    intro st₀ hall
    obtain ⟨hok, hlen1⟩ := processBatch_allhits hash enc invoke st₀ b
      (fun t ht => hall b (List.mem_cons_self _ _) t ht)
    obtain ⟨stf, hfold, hc, hca, htr, hn, he⟩ := ih
      { st₀ with embeddings := st₀.embeddings ++ (scanBatch hash st₀.cache b).1 }
      (fun b' hb' t ht => hall b' (List.mem_cons_of_mem _ hb') t ht)
    refine ⟨stf, ?_, hc, hca, htr, hn, ?_⟩
    · rw [List.foldlM_cons, hok]
      simpa [Bind.bind, Except.bind] using hfold
    · rw [he]
      simp only [List.length_append, List.map_cons, List.sum_cons, hlen1]
      omega

theorem loop_new_nonempty (hash : String → String) (enc : String → List Nat)
    (invoke : Invoke) :
    ∀ (L : List (List String)) (st₀ stf : EmbState),
    L.foldlM (processBatch hash enc invoke) st₀ = .ok stf →
    st₀.new_cache_entries ≠ [] → stf.new_cache_entries ≠ [] := by
  intro L
  induction L with
  | nil =>
    intro st₀ stf h hne
    simp only [List.foldlM_nil] at h
    cases Except.ok.inj h
    exact hne
  | cons b L' ih =>
    intro st₀ stf h hne
    rw [List.foldlM_cons] at h
    cases h1 : processBatch hash enc invoke st₀ b with
    | error e => rw [h1] at h; simp [Bind.bind, Except.bind] at h
    | ok st₁ =>
      rw [h1] at h
      simp only [Bind.bind, Except.bind] at h
      refine ih st₁ stf h ?_
      rcases processBatch_ok_elim hash enc invoke st₀ b st₁ h1 with
        ⟨_, rfl⟩ | ⟨_, embs, _, rfl⟩
      · exact hne
      · exact foldlInsert_ne_nil _ _ hne

theorem loop_newEmpty (hash : String → String) (enc : String → List Nat) (invoke : Invoke)
    (hlen : ∀ c ts w, (invoke c ts).1 = .ok w → w.length = ts.length) :
    ∀ (L : List (List String)) (st₀ stf : EmbState),
    L.foldlM (processBatch hash enc invoke) st₀ = .ok stf →
    stf.new_cache_entries = [] → st₀.new_cache_entries = [] →
    stf.cache = st₀.cache ∧ stf.calls = st₀.calls ∧ stf.trace = st₀.trace := by
  intro L
  induction L with
  | nil =>
    intro st₀ stf h _ _
    simp only [List.foldlM_nil] at h
    cases Except.ok.inj h
    exact ⟨rfl, rfl, rfl⟩
  | cons b L' ih =>
    intro st₀ stf h hfin h0
    rw [List.foldlM_cons] at h
    cases h1 : processBatch hash enc invoke st₀ b with
    | error e => rw [h1] at h; simp [Bind.bind, Except.bind] at h
    | ok st₁ =>
      rw [h1] at h
      simp only [Bind.bind, Except.bind] at h
      rcases processBatch_ok_elim hash enc invoke st₀ b st₁ h1 with
        ⟨_, rfl⟩ | ⟨hne, embs, hembs, rfl⟩
      · exact ih { st₀ with
          embeddings := st₀.embeddings ++ (scanBatch hash st₀.cache b).1 } stf h hfin h0
      · exfalso
        have hlenemb : embs.length = (scanBatch hash st₀.cache b).2.1.length :=
          embedCallFor_length enc invoke st₀.calls _ embs hlen hembs
        have hz : (scanBatch hash st₀.cache b).2.2.zip embs ≠ [] := by
          have h21 : 0 < (scanBatch hash st₀.cache b).2.1.length :=
            List.length_pos.2 hne
          have h22 : 0 < (scanBatch hash st₀.cache b).2.2.length := by
            rw [← scanBatch_length]; exact h21
          have hzl : 0 < ((scanBatch hash st₀.cache b).2.2.zip embs).length := by
            rw [List.length_zip]
            omega
          exact List.length_pos.1 hzl
        exact loop_new_nonempty hash enc invoke L' _ stf h
          (foldlInsert_ne_nil_of_pairs _ _ hz) hfin

theorem loop_nodump (hash : String → String) (enc : String → List Nat) (invoke : Invoke)
    (hinv : ∀ c ts, Event.cacheDump ∉ (invoke c ts).2.2) :
    ∀ (L : List (List String)) (st₀ stf : EmbState),
    L.foldlM (processBatch hash enc invoke) st₀ = .ok stf →
    Event.cacheDump ∉ st₀.trace → Event.cacheDump ∉ stf.trace := by
  intro L
  induction L with
  | nil =>
    intro st₀ stf h hnd
    simp only [List.foldlM_nil] at h
    cases Except.ok.inj h
    exact hnd
  | cons b L' ih =>
    intro st₀ stf h hnd
    rw [List.foldlM_cons] at h
    cases h1 : processBatch hash enc invoke st₀ b with
    | error e => rw [h1] at h; simp [Bind.bind, Except.bind] at h
    | ok st₁ =>
      rw [h1] at h
      simp only [Bind.bind, Except.bind] at h
      refine ih st₁ stf h ?_
      rcases processBatch_ok_elim hash enc invoke st₀ b st₁ h1 with
        ⟨_, rfl⟩ | ⟨_, embs, _, rfl⟩
      · exact hnd
      · intro hmem
        rcases List.mem_append.1 hmem with hm | hm
        · exact hnd hm
        · exact embedCallFor_nodump enc invoke st₀.calls _ hinv hm

theorem loop_error (hash : String → String) (enc : String → List Nat) (invoke : Invoke) :
    ∀ (L : List (List String)) (st₀ : EmbState) (e : PipelineError),
    L.foldlM (processBatch hash enc invoke) st₀ = .error e →
    ∃ st b, b ∈ L ∧ processBatch hash enc invoke st b = .error e := by
  intro L
  induction L with
  | nil =>
    intro st₀ e h
    simp only [List.foldlM_nil] at h
    cases h
  | cons b L' ih =>
    intro st₀ e h
    rw [List.foldlM_cons] at h
    cases h1 : processBatch hash enc invoke st₀ b with
    | error e' =>
      rw [h1] at h
      simp only [Bind.bind, Except.bind] at h
      cases Except.error.inj h
      exact ⟨st₀, b, List.mem_cons_self _ _, h1⟩
    | ok st₁ =>
      rw [h1] at h
      simp only [Bind.bind, Except.bind] at h
      rcases ih st₁ e h with ⟨st, b', hb', hpb⟩
      exact ⟨st, b', List.mem_cons_of_mem _ hb', hpb⟩

/-! ## Claim C7: when is the cache persisted -/

/-- C7 counterexample: two batches (batch size 1), each computing a new
cache entry, yet the trace shows both provider calls happen before the
single trailing cache dump — the cache is not persisted after each batch
that produces new entries. -/
theorem C7_counterexample :
    (resC7.map fun r => r.state.trace) =
      .ok [.embedCall ["aaaaaa"], .embedCall ["bbbbbb"], .cacheDump] ∧
    (resC7.map fun r => r.state.trace.count Event.cacheDump) = .ok 1 ∧
    (resC7.map fun r => r.state.new_cache_entries.length) = .ok 2 := by
  refine ⟨by decide, by decide, by decide⟩

/-- C7 (amended): the embedding loop itself never writes the cache file;
after the whole loop the cache is dumped exactly once if any batch
produced new entries (and not at all otherwise), the dump coming after
all provider calls. -/
theorem C7_persist_once_amended (hash : String → String) (enc : String → List Nat)
    (invoke : Invoke) (bs : Nat) (texts : List String) (cache₀ : Cache) (st₁ : EmbState)
    (hinv : ∀ c ts, Event.cacheDump ∉ (invoke c ts).2.2)
    (h : embedLoop hash enc invoke bs texts ⟨cache₀, [], [], 0, []⟩ = .ok st₁) :
    Event.cacheDump ∉ st₁.trace ∧
    (finishCache cache₀ st₁).1.trace.count Event.cacheDump =
      (if st₁.new_cache_entries.isEmpty then 0 else 1) ∧
    (¬ st₁.new_cache_entries.isEmpty = true →
      (finishCache cache₀ st₁).1.trace = st₁.trace ++ [Event.cacheDump]) := by
  unfold embedLoop at h
  have hnd : Event.cacheDump ∉ st₁.trace :=
    loop_nodump hash enc invoke hinv _ _ _ h (by simp)
  refine ⟨hnd, ?_, ?_⟩
  · unfold finishCache
    by_cases hemp : st₁.new_cache_entries.isEmpty
    · simp only [hemp, if_pos]
      simpa using List.count_eq_zero.2 hnd
    · simp [hemp, List.count_append, List.count_eq_zero.2 hnd]
  · intro hemp
    unfold finishCache
    simp [hemp]

/-- C7 witness: the amended theorem applied to the concrete two-batch
scenario (batch size 1, both texts new). -/
theorem C7_persist_once_amended_witness :
    Event.cacheDump ∉ stC7.trace ∧
    (finishCache [] stC7).1.trace.count Event.cacheDump =
      (if stC7.new_cache_entries.isEmpty then 0 else 1) ∧
    (¬ stC7.new_cache_entries.isEmpty = true →
      (finishCache [] stC7).1.trace = stC7.trace ++ [Event.cacheDump]) :=
  C7_persist_once_amended hashW encW (retryInvoke pOnes) 1 ["aaaaaa", "bbbbbb"] [] stC7
    (by intro c ts; simp [retryInvoke, embed_with_retry, retryAttempts, pOnes])
    (by decide)

/-! ## Claim C4: second run over an unchanged chunk set -/

theorem directInvoke_length (p : Provider)
    (hb : ∀ c ts v, p c ts = .ok v → v.length = ts.length) :
    ∀ c ts w, ((directInvoke p) c ts).1 = .ok w → w.length = ts.length := by
  intro c ts w h
  unfold directInvoke at h
  cases hp : p c ts with
  | ok v =>
    rw [hp] at h
    cases Except.ok.inj h
    exact hb c ts _ hp
  | error e =>
    rw [hp] at h
    cases h

/-- C4: re-running `get_retriever`'s embedding phase on an unchanged chunk
set against the cache persisted by the first run performs zero provider
calls: the cache key is the hash of the trimmed chunk text, every text
embedded in the first run is persisted, and on the second run every text
is found in the loaded cache so nothing is queued for embedding. -/
theorem C4_second_run_zero_calls (hash : String → String) (enc : String → List Nat)
    (p₁ p₂ : Provider) (chunks : List Doc) (cache₀ : Cache) (r₁ : BuildResult)
    (hplen : ∀ c ts v, p₁ c ts = .ok v → v.length = ts.length)
    (h₁ : getRetrieverEmbedPhase hash enc p₁ chunks cache₀ = .ok r₁) :
    ∃ r₂, getRetrieverEmbedPhase hash enc p₂ chunks r₁.persisted = .ok r₂ ∧
      r₂.state.calls = 0 ∧ countEmbedCalls r₂.state.trace = 0 ∧
      r₂.state.new_cache_entries = [] := by
  have hlen := directInvoke_length p₁ hplen
  simp only [getRetrieverEmbedPhase] at h₁
  by_cases hT1 : ((uniquePairsOf chunks).map Prod.fst).isEmpty
  · rw [if_pos hT1] at h₁; cases h₁
  · rw [if_neg hT1] at h₁
    by_cases hT2 : ((((uniquePairsOf chunks).filter fun tm =>
        2 < (enc tm.1).length)).map Prod.fst).isEmpty
    · rw [if_pos hT2] at h₁; cases h₁
    · rw [if_neg hT2] at h₁
      cases hloop : embedLoop hash enc (directInvoke p₁) 100
          ((((uniquePairsOf chunks).filter fun tm =>
            2 < (enc tm.1).length)).map Prod.fst) ⟨cache₀, [], [], 0, []⟩ with
      | error e => rw [hloop] at h₁; cases h₁
      | ok st =>
        rw [hloop] at h₁
        have h₁' : buildFromLoop ((uniquePairsOf chunks).filter fun tm =>
            2 < (enc tm.1).length) cache₀ st = .ok r₁ := h₁
        unfold buildFromLoop at h₁'
        have hr₁ : r₁.persisted = (finishCache cache₀ st).2 := by
          cases hemb : (finishCache cache₀ st).1.embeddings with
          | nil =>
            rw [hemb] at h₁'
            simp at h₁'
          | cons v vs =>
            rw [hemb] at h₁'
            cases Except.ok.inj h₁'
            rfl
        -- coverage of the final cache
        have hloop' := hloop
        unfold embedLoop at hloop'
        obtain ⟨hmono, hcover⟩ := loop_cover hash enc (directInvoke p₁) hlen _ _ _ hloop'
        have hcov : ∀ t ∈ (((uniquePairsOf chunks).filter fun tm =>
            2 < (enc tm.1).length)).map Prod.fst,
            (dictFind st.cache (hash t)).isSome := by
          intro t ht
          have hflat := toBatches_flatten 100 (by omega)
            ((((uniquePairsOf chunks).filter fun tm => 2 < (enc tm.1).length)).map Prod.fst)
          rw [← hflat] at ht
          rcases List.mem_flatten.1 ht with ⟨b, hb, htb⟩
          exact hcover b hb t htb
        -- coverage of the persisted cache
        have hpers : ∀ t ∈ (((uniquePairsOf chunks).filter fun tm =>
            2 < (enc tm.1).length)).map Prod.fst,
            (dictFind (finishCache cache₀ st).2 (hash t)).isSome := by
          unfold finishCache
          by_cases hne : st.new_cache_entries.isEmpty
          · simp only [hne, if_pos]
            obtain ⟨hceq, _, _⟩ := loop_newEmpty hash enc (directInvoke p₁) hlen _ _ _
              hloop' (List.isEmpty_iff.1 hne) rfl
            intro t ht
            have hsome := hcov t ht
            rwa [hceq] at hsome
          · simp only [hne, if_neg, if_false]
            exact hcov
        -- second run: every batch is a full cache hit
        obtain ⟨stf₂, hfold₂, hc₂, hca₂, htr₂, hn₂, he₂⟩ :=
          loop_allhits hash enc (directInvoke p₂)
            (toBatches 100 ((((uniquePairsOf chunks).filter fun tm =>
              2 < (enc tm.1).length)).map Prod.fst))
            ⟨(finishCache cache₀ st).2, [], [], 0, []⟩
            (by
              intro b hb t ht
              refine hpers t ?_
              have hflat := toBatches_flatten 100 (by omega)
                ((((uniquePairsOf chunks).filter fun tm =>
                  2 < (enc tm.1).length)).map Prod.fst)
              rw [← hflat]
              exact List.mem_flatten.2 ⟨b, hb, ht⟩)
        have he₂' : stf₂.embeddings.length =
            0 + ((toBatches 100 ((((uniquePairsOf chunks).filter fun tm =>
              2 < (enc tm.1).length)).map Prod.fst)).map List.length).sum := he₂
        have hlen₂ : stf₂.embeddings.length =
            ((((uniquePairsOf chunks).filter fun tm =>
              2 < (enc tm.1).length)).map Prod.fst).length := by
          rw [he₂']
          have hlf := List.length_flatten (toBatches 100
            ((((uniquePairsOf chunks).filter fun tm =>
              2 < (enc tm.1).length)).map Prod.fst))
          rw [toBatches_flatten 100 (by omega)] at hlf
          omega
        have htpos : 0 < ((((uniquePairsOf chunks).filter fun tm =>
            2 < (enc tm.1).length)).map Prod.fst).length := by
          cases hq : (((uniquePairsOf chunks).filter fun tm =>
              2 < (enc tm.1).length)).map Prod.fst with
          | nil => exact absurd (by rw [hq]; rfl) hT2
          | cons a l => simp [hq]
        have hn₂' : stf₂.new_cache_entries = [] := hn₂
        have hca₂' : stf₂.calls = 0 := hca₂
        have htr₂' : stf₂.trace = [] := htr₂
        have hfin₂a : (finishCache (finishCache cache₀ st).2 stf₂).1 = stf₂ := by
          unfold finishCache
          rw [hn₂']
          simp
        have hgoal : ∃ r₂, buildFromLoop ((uniquePairsOf chunks).filter fun tm =>
            2 < (enc tm.1).length) (finishCache cache₀ st).2 stf₂ = .ok r₂ ∧
            r₂.state.calls = 0 ∧ countEmbedCalls r₂.state.trace = 0 ∧
            r₂.state.new_cache_entries = [] := by
          unfold buildFromLoop
          rw [hfin₂a]
          cases hemb₂ : stf₂.embeddings with
          | nil =>
            rw [hemb₂, List.length_nil] at hlen₂
            omega
          | cons w ws =>
            refine ⟨_, rfl, ?_, ?_, ?_⟩
            · exact hca₂'
            · rw [htr₂']
              rfl
            · exact hn₂'
        simp only [getRetrieverEmbedPhase, hr₁]
        rw [if_neg hT1, if_neg hT2]
        unfold embedLoop
        rw [hfold₂]
        exact hgoal

/-- C4 witness: after a concrete first run over two chunk texts (provider
embedding everything as `[1]`), the second run against the persisted cache
succeeds with zero provider calls — even with a provider that always
fails, since it is never consulted. -/
theorem C4_second_run_zero_calls_witness :
    ∃ r₂, getRetrieverEmbedPhase hashW encW pDown chunksC4 r1C4.persisted = .ok r₂ ∧
      r₂.state.calls = 0 ∧ countEmbedCalls r₂.state.trace = 0 ∧
      r₂.state.new_cache_entries = [] :=
  C4_second_run_zero_calls hashW encW pOnes pDown chunksC4 [] r1C4
    (by
      intro c ts v h
      cases Except.ok.inj h
      simp [pOnes])
    (by decide)

/-! ## Stable sort and dedup lemmas (for the ensemble model) -/

theorem insertB_perm {α : Type} (before : α → α → Bool) (x : α) (l : List α) :
    List.Perm (insertB before x l) (x :: l) := by
  induction l with
  | nil => exact List.Perm.refl _
  | cons y ys ih =>
    unfold insertB
    by_cases h : before x y
    · rw [if_pos h]
    · rw [if_neg h]
      exact (List.Perm.cons y ih).trans (List.Perm.swap x y ys)

theorem sortB_perm {α : Type} (before : α → α → Bool) (l : List α) :
    List.Perm (sortB before l) l := by
  induction l with
  | nil => exact List.Perm.refl _
  | cons x xs ih =>
    unfold sortB
    exact (insertB_perm before x (sortB before xs)).trans (List.Perm.cons x ih)

theorem sortB_fixpoint {α : Type} (before : α → α → Bool) :
    ∀ l : List α, List.Chain' (fun a b => before a b = true) l → sortB before l = l := by
  intro l
  induction l with
  | nil => intro _; rfl
  | cons x xs ih =>
    intro hch
    unfold sortB
    rw [ih hch.tail]
    cases xs with
    | nil => rfl
    | cons y ys =>
      have hxy : before x y = true := (List.chain'_cons.1 hch).1
      unfold insertB
      rw [if_pos hxy]

theorem insertB_sorted {α : Type} (f : α → ℚ) (x : α) (l : List α)
    (h : l.Pairwise fun a b => f b ≤ f a) :
    (insertB (fun a b => !(decide (f a < f b))) x l).Pairwise fun a b => f b ≤ f a := by
  induction l with
  | nil => simp [insertB]
  | cons y ys ih =>
    rcases List.pairwise_cons.1 h with ⟨hy, hys⟩
    unfold insertB
    by_cases hb : (!(decide (f x < f y))) = true
    · rw [if_pos hb]
      have hxy : f y ≤ f x := by simpa [not_lt] using hb
      refine List.pairwise_cons.2 ⟨?_, h⟩
      intro z hz
      rcases List.mem_cons.1 hz with rfl | hz
      · exact hxy
      · exact le_trans (hy z hz) hxy
    · rw [if_neg hb]
      have hxy : f x < f y := by simpa [not_lt] using hb
      refine List.pairwise_cons.2 ⟨?_, ih hys⟩
      intro z hz
      have hz' : z ∈ x :: ys :=
        (insertB_perm (fun a b => !(decide (f a < f b))) x ys).mem_iff.1 hz
      rcases List.mem_cons.1 hz' with rfl | hz'
      · exact le_of_lt hxy
      · exact hy z hz'

theorem sortB_sorted {α : Type} (f : α → ℚ) (l : List α) :
    (sortB (fun a b => !(decide (f a < f b))) l).Pairwise fun a b => f b ≤ f a := by
  induction l with
  | nil => simp [sortB]
  | cons x xs ih =>
    unfold sortB
    exact insertB_sorted f x _ ih

theorem sorted_unique {α : Type} (f : α → ℚ) :
    ∀ l₁ l₂ : List α, List.Perm l₁ l₂ →
    l₁.Pairwise (fun a b => f b ≤ f a) → l₂.Pairwise (fun a b => f b ≤ f a) →
    l₁.Pairwise (fun a b => f a ≠ f b) → l₁ = l₂ := by
  intro l₁
  induction l₁ with
  | nil =>
    intro l₂ hp _ _ _
    exact (List.Perm.nil_eq hp).symm.symm
  | cons x t₁ ih =>
    intro l₂ hp hs₁ hs₂ hd₁
    cases l₂ with
    | nil => cases List.Perm.eq_nil hp
    | cons y t₂ =>
      have hx : x = y := by
        by_contra hxy
        have hxl₂ : x ∈ y :: t₂ := hp.mem_iff.1 (List.mem_cons_self _ _)
        have hyl₁ : y ∈ x :: t₁ := hp.mem_iff.2 (List.mem_cons_self _ _)
        have hxt₂ : x ∈ t₂ := by
          rcases List.mem_cons.1 hxl₂ with h | h
          · exact absurd h hxy
          · exact h
        have hyt₁ : y ∈ t₁ := by
          rcases List.mem_cons.1 hyl₁ with h | h
          · exact absurd h.symm hxy
          · exact h
        have h1 : f x ≤ f y := (List.pairwise_cons.1 hs₂).1 x hxt₂
        have h2 : f y ≤ f x := (List.pairwise_cons.1 hs₁).1 y hyt₁
        exact (List.pairwise_cons.1 hd₁).1 y hyt₁ (le_antisymm h2 h1).symm
      subst hx
      rw [ih t₂ (List.Perm.cons_inv hp) (List.pairwise_cons.1 hs₁).2
        (List.pairwise_cons.1 hs₂).2 (List.pairwise_cons.1 hd₁).2]

theorem mem_firstDedupAux {α : Type} [DecidableEq α] :
    ∀ (l seen : List α) (c : α), c ∈ firstDedupAux seen l ↔ c ∈ l ∧ c ∉ seen := by
  intro l
  induction l with
  | nil => intro seen c; simp [firstDedupAux]
  | cons x xs ih =>
    intro seen c
    unfold firstDedupAux
    by_cases hx : x ∈ seen
    · rw [if_pos hx, ih]
      constructor
      · rintro ⟨hc, hcs⟩
        exact ⟨List.mem_cons_of_mem _ hc, hcs⟩
      · rintro ⟨hc, hcs⟩
        rcases List.mem_cons.1 hc with rfl | hc
        · exact absurd hx hcs
        · exact ⟨hc, hcs⟩
    · rw [if_neg hx]
      constructor
      · intro hc
        rcases List.mem_cons.1 hc with rfl | hc
        · exact ⟨List.mem_cons_self _ _, hx⟩
        · rw [ih] at hc
          exact ⟨List.mem_cons_of_mem _ hc.1,
            fun hs => hc.2 (List.mem_cons_of_mem _ hs)⟩
      · rintro ⟨hc, hcs⟩
        rcases List.mem_cons.1 hc with rfl | hc
        · exact List.mem_cons_self _ _
        · by_cases hcx : c = x
          · subst hcx
            exact List.mem_cons_self _ _
          · refine List.mem_cons_of_mem _ ?_
            rw [ih]
            exact ⟨hc, fun hs => (List.mem_cons.1 hs).elim hcx hcs⟩

theorem firstDedupAux_nodup {α : Type} [DecidableEq α] :
    ∀ (l seen : List α), (firstDedupAux seen l).Nodup := by
  intro l
  induction l with
  | nil => intro seen; simp [firstDedupAux]
  | cons x xs ih =>
    intro seen
    unfold firstDedupAux
    by_cases hx : x ∈ seen
    · rw [if_pos hx]
      exact ih seen
    · rw [if_neg hx]
      refine List.nodup_cons.2 ⟨?_, ih _⟩
      intro hmem
      exact ((mem_firstDedupAux xs (x :: seen) x).1 hmem).2 (List.mem_cons_self _ _)

theorem firstDedup_nodup {α : Type} [DecidableEq α] (l : List α) : (firstDedup l).Nodup :=
  firstDedupAux_nodup l []

theorem mem_firstDedup {α : Type} [DecidableEq α] (l : List α) (c : α) :
    c ∈ firstDedup l ↔ c ∈ l := by
  unfold firstDedup
  rw [mem_firstDedupAux]
  simp

theorem firstDedupAux_append_left {α : Type} [DecidableEq α] :
    ∀ (L₁ : List α), L₁.Nodup → ∀ (L₂ seen : List α), (∀ x ∈ L₁, x ∉ seen) →
    ∃ rest, firstDedupAux seen (L₁ ++ L₂) = L₁ ++ rest ∧ ∀ c ∈ rest, c ∉ L₁ := by
  intro L₁
  induction L₁ with
  | nil =>
    intro _ L₂ seen _
    exact ⟨firstDedupAux seen L₂, rfl, by intro c _ hc; cases hc⟩
  | cons x t ih =>
    intro hnd L₂ seen hseen
    have hx : x ∉ seen := hseen x (List.mem_cons_self _ _)
    have hstep : firstDedupAux seen ((x :: t) ++ L₂)
        = x :: firstDedupAux (x :: seen) (t ++ L₂) := by
      show (if x ∈ seen then firstDedupAux seen (t ++ L₂)
        else x :: firstDedupAux (x :: seen) (t ++ L₂)) = _
      rw [if_neg hx]
    obtain ⟨rest, hrec, hrest⟩ := ih (List.nodup_cons.1 hnd).2 L₂ (x :: seen)
      (by
        intro y hy hmem
        rcases List.mem_cons.1 hmem with rfl | hmem
        · exact (List.nodup_cons.1 hnd).1 hy
        · exact hseen y (List.mem_cons_of_mem _ hy) hmem)
    refine ⟨rest, by rw [hstep, hrec]; rfl, ?_⟩
    intro c hc hmem
    rcases List.mem_cons.1 hmem with rfl | hmem
    · have : c ∈ firstDedupAux (c :: seen) (t ++ L₂) := by
        rw [hrec]
        exact List.mem_append.2 (Or.inr hc)
      exact ((mem_firstDedupAux _ _ _).1 this).2 (List.mem_cons_self _ _)
    · exact hrest c hc hmem

/-! ## Rank-contribution facts -/

theorem nodup_indexOf_getElem {α : Type} [DecidableEq α] (l : List α) (h : l.Nodup)
    (i : Nat) (hi : i < l.length) :
    List.indexOf l[i] l = i := by
  have hmem : l[i] ∈ l := List.getElem_mem hi
  have hlt : List.indexOf l[i] l < l.length := List.indexOf_lt_length.2 hmem
  exact (List.Nodup.getElem_inj_iff h).1 (List.getElem_indexOf hlt)

theorem rankContrib_getElem (L : List Doc) (h : L.Nodup) (i : Nat) (hi : i < L.length) :
    rankContrib L L[i] = 1 / ((i : ℚ) + 1) := by
  unfold rankContrib
  rw [if_pos (List.getElem_mem hi), nodup_indexOf_getElem L h i hi]

theorem pairwise_rankContrib (L : List Doc) (h : L.Nodup) :
    L.Pairwise fun a b => rankContrib L b < rankContrib L a := by
  rw [List.pairwise_iff_getElem]
  intro i j hi hj hij
  rw [rankContrib_getElem L h i hi, rankContrib_getElem L h j hj]
  apply one_div_lt_one_div_of_lt
  · positivity
  · have : (i : ℚ) < (j : ℚ) := by exact_mod_cast hij
    linarith

theorem rankContrib_pos (L : List Doc) (c : Doc) : 0 < rankContrib L c ↔ c ∈ L := by
  unfold rankContrib
  by_cases h : c ∈ L
  · rw [if_pos h]
    constructor
    · intro _
      exact h
    · intro _
      positivity
  · rw [if_neg h]
    simp [h]

/-! ## Claim C6: ensemble fusion with extreme weights -/

/-- C6: in the spec-modelled `EnsembleRetriever`, the fused score is the
weighted sum of rank contributions (absent chunks contribute zero, ties go
to the first-listed retriever); consequently with weights (1,0) the fused
ranking equals the first sub-retriever's ranking alone, and with (0,1) the
second's alone. -/
theorem C6_ensemble_extreme_weights (L₁ L₂ : List Doc) (k : Nat)
    (h₁ : L₁.Nodup) (h₂ : L₂.Nodup) :
    ensembleFuse 1 0 L₁ L₂ k = L₁.take k ∧ ensembleFuse 0 1 L₁ L₂ k = L₂.take k := by
  constructor
  · have hscore : ∀ c, fusedScore 1 0 L₁ L₂ c = rankContrib L₁ c := by
      intro c
      unfold fusedScore
      ring
    unfold ensembleFuse firstDedup
    obtain ⟨rest, hdec, hrest⟩ := firstDedupAux_append_left L₁ h₁ L₂ []
      (by intro x _ hx; cases hx)
    rw [hdec, List.filter_append]
    have hfL : L₁.filter (fun c => decide (0 < fusedScore 1 0 L₁ L₂ c)) = L₁ := by
      apply List.filter_eq_self.2
      intro c hc
      simp only [hscore, decide_eq_true_eq]
      exact (rankContrib_pos L₁ c).2 hc
    have hfR : rest.filter (fun c => decide (0 < fusedScore 1 0 L₁ L₂ c)) = [] := by
      apply List.filter_eq_nil_iff.2
      intro c hc
      simp only [hscore, decide_eq_true_eq, not_lt]
      unfold rankContrib
      rw [if_neg (hrest c hc)]
    rw [hfL, hfR, List.append_nil]
    have hchain : List.Chain' (fun a b =>
        (!(decide (fusedScore 1 0 L₁ L₂ a < fusedScore 1 0 L₁ L₂ b))) = true) L₁ := by
      refine List.Pairwise.chain' ?_
      refine (pairwise_rankContrib L₁ h₁).imp ?_
      intro a b hab
      simp [hscore, not_lt, le_of_lt hab]
    rw [sortB_fixpoint _ _ hchain]
  · have hscore : ∀ c, fusedScore 0 1 L₁ L₂ c = rankContrib L₂ c := by
      intro c
      unfold fusedScore
      ring
    unfold ensembleFuse
    have hmemf : ∀ c, c ∈ (firstDedup (L₁ ++ L₂)).filter
        (fun c => decide (0 < fusedScore 0 1 L₁ L₂ c)) ↔ c ∈ L₂ := by
      intro c
      rw [List.mem_filter]
      constructor
      · rintro ⟨_, hpos⟩
        simp only [hscore, decide_eq_true_eq] at hpos
        exact (rankContrib_pos L₂ c).1 hpos
      · intro hc
        refine ⟨?_, ?_⟩
        · rw [mem_firstDedup]
          exact List.mem_append.2 (Or.inr hc)
        · simp only [hscore, decide_eq_true_eq]
          exact (rankContrib_pos L₂ c).2 hc
    have hfnodup : ((firstDedup (L₁ ++ L₂)).filter
        (fun c => decide (0 < fusedScore 0 1 L₁ L₂ c))).Nodup :=
      (firstDedup_nodup _).filter _
    have hperm : List.Perm ((firstDedup (L₁ ++ L₂)).filter
        (fun c => decide (0 < fusedScore 0 1 L₁ L₂ c))) L₂ := by
      refine List.perm_iff_count.2 ?_
      intro a
      by_cases ha : a ∈ L₂
      · rw [List.count_eq_one_of_mem hfnodup ((hmemf a).2 ha),
          List.count_eq_one_of_mem h₂ ha]
      · rw [List.count_eq_zero_of_not_mem (fun hm => ha ((hmemf a).1 hm)),
          List.count_eq_zero_of_not_mem ha]
    have hsorted₁ := sortB_sorted (fusedScore 0 1 L₁ L₂)
      ((firstDedup (L₁ ++ L₂)).filter (fun c => decide (0 < fusedScore 0 1 L₁ L₂ c)))
    have hsorted₂ : L₂.Pairwise fun a b =>
        fusedScore 0 1 L₁ L₂ b ≤ fusedScore 0 1 L₁ L₂ a := by
      refine (pairwise_rankContrib L₂ h₂).imp ?_
      intro a b hab
      simp only [hscore]
      exact le_of_lt hab
    have hdist₂ : L₂.Pairwise fun a b =>
        fusedScore 0 1 L₁ L₂ a ≠ fusedScore 0 1 L₁ L₂ b := by
      refine (pairwise_rankContrib L₂ h₂).imp ?_
      intro a b hab
      simp only [hscore]
      exact (ne_of_lt hab).symm
    have hsp : List.Perm (sortB (fun a b =>
        !(decide (fusedScore 0 1 L₁ L₂ a < fusedScore 0 1 L₁ L₂ b)))
        ((firstDedup (L₁ ++ L₂)).filter (fun c => decide (0 < fusedScore 0 1 L₁ L₂ c)))) L₂ :=
      (sortB_perm _ _).trans hperm
    have hdist₁ : (sortB (fun a b =>
        !(decide (fusedScore 0 1 L₁ L₂ a < fusedScore 0 1 L₁ L₂ b)))
        ((firstDedup (L₁ ++ L₂)).filter
          (fun c => decide (0 < fusedScore 0 1 L₁ L₂ c)))).Pairwise
        fun a b => fusedScore 0 1 L₁ L₂ a ≠ fusedScore 0 1 L₁ L₂ b := by
      refine (List.Perm.pairwise_iff ?_ hsp).2 hdist₂
      intro a b hab
      exact hab.symm
    rw [sorted_unique (fusedScore 0 1 L₁ L₂) _ L₂ hsp hsorted₁ hsorted₂ hdist₁]

/-- C6 witness: the theorem applied to concrete two-element ranked lists
(with an overlapping chunk), the hypotheses discharged by evaluation. -/
theorem C6_ensemble_extreme_weights_witness :
    ensembleFuse 1 0 [⟨"a", []⟩, ⟨"b", []⟩] [⟨"b", []⟩, ⟨"c", []⟩] 5 =
        ([⟨"a", []⟩, ⟨"b", []⟩] : List Doc).take 5 ∧
    ensembleFuse 0 1 [⟨"a", []⟩, ⟨"b", []⟩] [⟨"b", []⟩, ⟨"c", []⟩] 5 =
        ([⟨"b", []⟩, ⟨"c", []⟩] : List Doc).take 5 :=
  C6_ensemble_extreme_weights [⟨"a", []⟩, ⟨"b", []⟩] [⟨"b", []⟩, ⟨"c", []⟩] 5
    (by decide) (by decide)

/-! ## Claim C5: identical documents, dedup and retrieval -/

theorem foldlInsert_const_key (k : String) :
    ∀ (l : List Metadata) (m₀ : Metadata),
    l.foldl (fun acc md => dictInsert acc k md) [(k, m₀)] = [(k, l.getLastD m₀)] := by
  intro l
  induction l with
  | nil => intro m₀; rfl
  | cons x xs ih =>
    intro m₀
    rw [List.foldl_cons]
    have hins : dictInsert [(k, m₀)] k x = [(k, x)] := by simp [dictInsert]
    rw [hins, ih x, List.getLastD_cons]

theorem uniquePairs_ident (t : String) (ms : List Metadata) (m : Metadata) :
    uniquePairsOf ((ms ++ [m]).map fun md => (⟨t, md⟩ : Doc)) = [(pyStrip t, m)] := by
  unfold uniquePairsOf
  rw [List.foldl_map]
  dsimp only
  cases hms : ms ++ [m] with
  | nil => cases List.append_ne_nil_of_right_ne_nil ms (by simp : [m] ≠ []) hms
  | cons y ys =>
    rw [List.foldl_cons]
    have hins : dictInsert ([] : List (String × Metadata)) (pyStrip t) y
        = [(pyStrip t, y)] := rfl
    rw [hins, foldlInsert_const_key (pyStrip t) ys y]
    have hlast : (ms ++ [m]).getLastD m = m := by
      rw [List.getLastD_concat]
    rw [hms, List.getLastD_cons] at hlast
    rw [hlast]

theorem embedLoop_single_miss (hash : String → String) (enc : String → List Nat)
    (p : Provider) (t : String) (cache₀ : Cache) (v : Vec)
    (hmiss : dictFind cache₀ (hash t) = none)
    (htok : (enc t).length ≤ 280000)
    (hp : p 0 [t] = .ok [v]) :
    embedLoop hash enc (directInvoke p) 100 [t] ⟨cache₀, [], [], 0, []⟩ =
      .ok ⟨dictInsert cache₀ (hash t) v, [v], [(hash t, v)], 1, [.embedCall [t]]⟩ := by
  unfold embedLoop
  have hb : toBatches 100 [t] = [[t]] := rfl
  rw [hb, List.foldlM_cons]
  have hscan : scanBatch hash cache₀ [t] = ([], [t], [hash t]) := by
    simp only [scanBatch, hmiss]
  have hcond : ¬ (280000 < (([t].map fun s => (enc s).length).sum)) := by
    simp only [List.map_cons, List.map_nil, List.sum_cons, List.sum_nil]
    omega
  have hpb : processBatch hash enc (directInvoke p) ⟨cache₀, [], [], 0, []⟩ [t] =
      .ok ⟨dictInsert cache₀ (hash t) v, [v], [(hash t, v)], 1, [.embedCall [t]]⟩ := by
    simp only [processBatch, hscan]
    rw [if_neg (by simp)]
    simp only [embedCallFor]
    rw [if_neg hcond]
    simp only [directInvoke, hp]
    rfl
  rw [hpb]
  simp only [Bind.bind, Except.bind, List.foldlM_nil]
  rfl

unseal Rat.add Rat.mul Rat.inv Rat.sub in
/-- C5 counterexample: six byte-identical documents with `k = 5`; the full
modelled pipeline (cache, FAISS store, BM25 corpus, ensemble fusion)
succeeds, yet retrieval for a matching query does not return the metadata
of all six source documents. -/
theorem C5_counterexample :
    (runC5 records6).isOk = true ∧
    (metas6.all fun m => c5res6.any fun d => d.metadata == m) = false := by
  refine ⟨by decide, by decide⟩

unseal Rat.add Rat.mul Rat.inv Rat.sub in
/-- C5 (amended): byte-identical documents collapse, after trimming, to a
single unique embedded text whose dict entry keeps only the last
document's metadata; that one text triggers a single embedding call; the
ensemble returns at most `k` results, so the metadata of all N source
documents is returned only when N ≤ k (the duplicates all survive in the
lexical corpus) — as in the concrete N = 2, k = 5 run — and cannot be
returned when N > k. -/
theorem C5_dedup_retrieval_amended :
    (∀ (t : String) (ms : List Metadata) (m : Metadata),
      uniquePairsOf ((ms ++ [m]).map fun md => (⟨t, md⟩ : Doc)) = [(pyStrip t, m)]) ∧
    (∀ (hash : String → String) (enc : String → List Nat) (p : Provider)
      (t : String) (cache₀ : Cache) (v : Vec),
      dictFind cache₀ (hash t) = none → (enc t).length ≤ 280000 → p 0 [t] = .ok [v] →
      embedLoop hash enc (directInvoke p) 100 [t] ⟨cache₀, [], [], 0, []⟩ =
        .ok ⟨dictInsert cache₀ (hash t) v, [v], [(hash t, v)], 1, [.embedCall [t]]⟩) ∧
    (∀ (w₁ w₂ : ℚ) (L₁ L₂ : List Doc) (k : Nat), (ensembleFuse w₁ w₂ L₁ L₂ k).length ≤ k) ∧
    (runC5 records2).isOk = true ∧
    (metas2.all fun m => c5res2.any fun d => d.metadata == m) = true := by
  refine ⟨uniquePairs_ident, embedLoop_single_miss, ?_, by decide, by decide⟩
  intro w₁ w₂ L₁ L₂ k
  unfold ensembleFuse
  exact List.length_take_le _ _

/-- C5 witness: the amended theorem's quantified parts applied at concrete
inputs — three identical documents collapse to one entry keeping the last
metadata, and the single deduplicated text causes exactly one provider
call. -/
theorem C5_dedup_retrieval_amended_witness :
    uniquePairsOf (([[("source", "f1")], [("source", "f2")]] ++ [[("source", "f3")]]).map
        fun md => (⟨"txt", md⟩ : Doc)) = [(pyStrip "txt", [("source", "f3")])] ∧
    embedLoop hashW encW (directInvoke pOnes) 100 ["txt"] ⟨[], [], [], 0, []⟩ =
      .ok ⟨dictInsert [] (hashW "txt") [1], [[1]], [(hashW "txt", [1])], 1,
        [.embedCall ["txt"]]⟩ :=
  ⟨C5_dedup_retrieval_amended.1 "txt" [[("source", "f1")], [("source", "f2")]]
      [("source", "f3")],
   C5_dedup_retrieval_amended.2.1 hashW encW pOnes "txt" [] [1] (by decide) (by decide)
      (by decide)⟩

/-! ## Claim C8: document loading and the no-documents error -/

theorem directInvoke_error (p : Provider) (c : Nat) (ts : List String) (e : PipelineError)
    (h : ((directInvoke p) c ts).1 = .error e) : ∃ m, e = .providerError m := by
  unfold directInvoke at h
  cases hp : p c ts with
  | ok v => rw [hp] at h; cases h
  | error m =>
    rw [hp] at h
    exact ⟨m, (Except.error.inj h).symm⟩

theorem embedCallFor_error (enc : String → List Nat) (invoke : Invoke) (c : Nat)
    (bte : List String) (e : PipelineError) (P : PipelineError → Prop)
    (hinv : ∀ c ts e, (invoke c ts).1 = .error e → P e)
    (h : (embedCallFor enc invoke c bte).1 = .error e) : P e := by
  unfold embedCallFor at h
  by_cases htot : 280000 < ((bte.map fun t => (enc t).length).sum)
  · simp only [htot, if_pos] at h
    cases h1 : (invoke c (bte.take (bte.length / 2))).1 with
    | error e1 =>
      rw [h1] at h
      cases Except.error.inj h
      exact hinv _ _ _ h1
    | ok v1 =>
      rw [h1] at h
      cases h2 : (invoke (invoke c (bte.take (bte.length / 2))).2.1
          (bte.drop (bte.length / 2))).1 with
      | error e2 =>
        rw [h2] at h
        cases Except.error.inj h
        exact hinv _ _ _ h2
      | ok v2 => rw [h2] at h; cases h
  · simp only [htot, if_neg, if_false] at h
    exact hinv _ _ _ h

theorem processBatch_error_shape (hash : String → String) (enc : String → List Nat)
    (invoke : Invoke) (st : EmbState) (batch : List String) (e : PipelineError)
    (P : PipelineError → Prop)
    (hinv : ∀ c ts e, (invoke c ts).1 = .error e → P e)
    (h : processBatch hash enc invoke st batch = .error e) : P e := by
  unfold processBatch at h
  by_cases hempty : (scanBatch hash st.cache batch).2.1.isEmpty
  · simp only [hempty, if_pos] at h
    cases h
  · simp only [hempty, if_neg, if_false] at h
    cases hcall : (embedCallFor enc invoke st.calls (scanBatch hash st.cache batch).2.1).1 with
    | error e1 =>
      rw [hcall] at h
      cases Except.error.inj h
      exact embedCallFor_error enc invoke st.calls _ _ P hinv hcall
    | ok embs => rw [hcall] at h; cases h

theorem embedPhase_ne_noDocuments (hash : String → String) (enc : String → List Nat)
    (p : Provider) (chunks : List Doc) (cache₀ : Cache) :
    getRetrieverEmbedPhase hash enc p chunks cache₀ ≠ .error .noDocuments := by
  intro h
  simp only [getRetrieverEmbedPhase] at h
  by_cases hT1 : ((uniquePairsOf chunks).map Prod.fst).isEmpty
  · rw [if_pos hT1] at h
    cases Except.error.inj h
  · rw [if_neg hT1] at h
    by_cases hT2 : ((((uniquePairsOf chunks).filter fun tm =>
        2 < (enc tm.1).length)).map Prod.fst).isEmpty
    · rw [if_pos hT2] at h
      cases Except.error.inj h
    · rw [if_neg hT2] at h
      cases hloop : embedLoop hash enc (directInvoke p) 100
          ((((uniquePairsOf chunks).filter fun tm =>
            2 < (enc tm.1).length)).map Prod.fst) ⟨cache₀, [], [], 0, []⟩ with
      | error e =>
        rw [hloop] at h
        cases Except.error.inj h
        have hloop' := hloop
        unfold embedLoop at hloop'
        rcases loop_error hash enc (directInvoke p) _ _ _ hloop' with ⟨st, b, _, hpb⟩
        have := processBatch_error_shape hash enc (directInvoke p) st b _
          (fun e => ∃ m, e = PipelineError.providerError m)
          (fun c ts e he => directInvoke_error p c ts e he) hpb
        rcases this with ⟨m, hm⟩
        cases hm
      | ok st =>
        rw [hloop] at h
        have h' : buildFromLoop ((uniquePairsOf chunks).filter fun tm =>
            2 < (enc tm.1).length) cache₀ st = .error .noDocuments := h
        unfold buildFromLoop at h'
        cases hemb : (finishCache cache₀ st).1.embeddings with
        | nil =>
          rw [hemb] at h'
          cases Except.error.inj h'
        | cons v vs =>
          rw [hemb] at h'
          cases h'

theorem foldl_if_append {α β : Type} (p : α → Prop) [DecidablePred p] (g : α → β) :
    ∀ (l : List α) (acc : List β),
    l.foldl (fun acc x => if p x then acc ++ [g x] else acc) acc =
      acc ++ (l.filter (fun x => decide (p x))).map g := by
  intro l
  induction l with
  | nil => intro acc; simp
  | cons x t ih =>
    intro acc
    rw [List.foldl_cons]
    by_cases hx : p x
    · rw [if_pos hx, ih]
      simp [hx, List.filter_cons]
    · rw [if_neg hx, ih]
      simp [hx, List.filter_cons]

/-- C8: `load_documents` yields one `Doc` per (sorted, limited) `.json`
record whose concatenated non-blank page text is non-empty; each of the
nine fixed metadata fields defaults to the empty string when the record
key is absent; and `get_retriever` fails with the no-documents error iff
the loaded document set is empty. -/
theorem C8_load_documents_spec :
    (∀ (records : List (String × RecordData)) (limit : Option Nat),
      load_documents records limit =
        ((filesOf records limit).filter (fun f => decide (fullTextOf f.2 ≠ ""))).map
          fun f => ⟨fullTextOf f.2, mkDocMetadata f.2.csv_metadata f.1⟩) ∧
    (∀ (md : List (String × String)) (fn dk rk : String),
      (dk, rk) ∈ metaFieldPairs → dictFind md rk = none →
      dictFind (mkDocMetadata md fn) dk = some "") ∧
    (∀ (enc : String → List Nat) (dec : List Nat → String)
      (split : String → List String) (hash : String → String) (p : Provider)
      (records : List (String × RecordData)) (limit : Option Nat) (cache₀ : Cache)
      (key : Option String) (reuse : Bool) (saved : Option FaissStore) (k : Nat),
      get_retriever enc dec split hash p records limit cache₀ key reuse saved k =
          .error .noDocuments ↔ load_documents records limit = []) := by
  refine ⟨?_, ?_, ?_⟩
  · intro records limit
    unfold load_documents
    exact (foldl_if_append (fun f => fullTextOf f.2 ≠ "")
      (fun f => (⟨fullTextOf f.2, mkDocMetadata f.2.csv_metadata f.1⟩ : Doc))
      (filesOf records limit) []).trans (List.nil_append _)
  · intro md fn dk rk hmem hnone
    simp only [metaFieldPairs, List.mem_cons, List.mem_singleton, Prod.mk.injEq,
      List.not_mem_nil, or_false] at hmem
    rcases hmem with h | h | h | h | h | h | h | h | h <;>
      (obtain ⟨rfl, rfl⟩ := h
       simp [mkDocMetadata, metaGetD, dictFind, hnone])
  · intro enc dec split hash p records limit cache₀ key reuse saved k
    constructor
    · intro h
      by_contra hne
      simp only [get_retriever] at h
      rw [if_neg (by simpa [List.isEmpty_iff] using hne)] at h
      by_cases hch : (semantic_token_chunk_documents enc dec split
          (load_documents records limit) 300 50).isEmpty
      · rw [if_pos hch] at h
        cases Except.error.inj h
      · rw [if_neg hch] at h
        cases key with
        | none => cases Except.error.inj h
        | some key =>
          cases hsaved : (if reuse then saved else none) with
          | some sIdx => rw [hsaved] at h; cases h
          | none =>
            rw [hsaved] at h
            cases hph : getRetrieverEmbedPhase hash enc p (semantic_token_chunk_documents
                enc dec split (load_documents records limit) 300 50) cache₀ with
            | error e =>
              rw [hph] at h
              cases Except.error.inj h
              exact embedPhase_ne_noDocuments hash enc p _ cache₀ hph
            | ok res =>
              rw [hph] at h
              cases h
    · intro h
      simp [get_retriever, h]

/-- C8 witness: the characterization applied to a concrete two-record
folder (one record with blank pages only, which is skipped), a missing
metadata key defaulting to the empty string, and the concrete
no-documents failure on an empty folder. -/
theorem C8_load_documents_spec_witness :
    load_documents [("a.json", mkRec "hi"), ("b.json", ⟨[], [⟨some " "⟩]⟩)] none =
      (((filesOf [("a.json", mkRec "hi"), ("b.json", ⟨[], [⟨some " "⟩]⟩)] none).filter
        (fun f => decide (fullTextOf f.2 ≠ ""))).map
          fun f => ⟨fullTextOf f.2, mkDocMetadata f.2.csv_metadata f.1⟩) ∧
    dictFind (mkDocMetadata [("사업명", "X")] "a.json") "공고번호" = some "" ∧
    (get_retriever encW decW splitOne hashW pOnes [] none [] (some "k") true none 5 =
        .error .noDocuments ↔ load_documents [] none = []) :=
  ⟨C8_load_documents_spec.1 [("a.json", mkRec "hi"), ("b.json", ⟨[], [⟨some " "⟩]⟩)] none,
   C8_load_documents_spec.2.1 [("사업명", "X")] "a.json" "공고번호" "공고 번호"
     (by decide) (by decide),
   C8_load_documents_spec.2.2 encW decW splitOne hashW pOnes [] none [] (some "k")
     true none 5⟩

/-! ## Claim C10: reusing a persisted index -/

/-- C10: with `reuse_index` true and an existing index directory,
`get_retriever` deserializes the vector store from disk, makes zero
embedding-provider calls and no cache writes, still rebuilds the lexical
retriever from the freshly loaded and chunked documents, and assembles the
ensemble with weights 0.5/0.5. -/
theorem C10_reuse_index (enc : String → List Nat) (dec : List Nat → String)
    (split : String → List String) (hash : String → String) (p : Provider)
    (records : List (String × RecordData)) (limit : Option Nat) (cache₀ : Cache)
    (key : String) (s : FaissStore) (k : Nat)
    (hdocs : load_documents records limit ≠ [])
    (hchunks : semantic_token_chunk_documents enc dec split
      (load_documents records limit) 300 50 ≠ []) :
    get_retriever enc dec split hash p records limit cache₀ (some key) true (some s) k =
      .ok (⟨semantic_token_chunk_documents enc dec split
        (load_documents records limit) 300 50, s, k, (1/2, 1/2)⟩, [.indexLoad]) ∧
    countEmbedCalls [Event.indexLoad] = 0 ∧
    Event.cacheDump ∉ [Event.indexLoad] := by
  refine ⟨?_, rfl, by simp⟩
  simp only [get_retriever]
  rw [if_neg (by simpa [List.isEmpty_iff] using hdocs),
    if_neg (by simpa [List.isEmpty_iff] using hchunks)]
  rfl

/-- C10 witness: a concrete one-record folder with a saved index; the
loaded store is returned unchanged next to the freshly built lexical
corpus, with only the index-load event in the trace. -/
theorem C10_reuse_index_witness :
    get_retriever encW decW splitOne hashW pDown [("a.json", mkRec "hello")] none []
        (some "k") true (some ⟨[[1]], [⟨"x", []⟩]⟩) 5 =
      .ok (⟨semantic_token_chunk_documents encW decW splitOne
        (load_documents [("a.json", mkRec "hello")] none) 300 50,
        ⟨[[1]], [⟨"x", []⟩]⟩, 5, (1/2, 1/2)⟩, [.indexLoad]) ∧
    countEmbedCalls [Event.indexLoad] = 0 ∧
    Event.cacheDump ∉ [Event.indexLoad] :=
  C10_reuse_index encW decW splitOne hashW pDown [("a.json", mkRec "hello")] none []
    "k" ⟨[[1]], [⟨"x", []⟩]⟩ 5 (by decide) (by decide)

end RfpRag
